import Mathlib

/-
Verification development for the embedding engine in `src/embedding.rs`
(functions `calculate_embeddings`, `calculate_embeddings_mmap` and the two
multiplicator structs).  Floating point values are modelled over the reals;
machine integers over `Nat`/`Int` with explicit reduction modulo `2 ^ 64`.
Fallible operations (Vec indexing `.unwrap()`, slice indexing, file-system
calls) are modelled in the `Option` monad, `none` standing for a panic.
-/

namespace Cleora

/-- Reinterpretation of a signed integer as an unsigned 64-bit value
(the Rust cast `as u64`), i.e. the two's-complement residue mod `2 ^ 64`. -/
def toU64 (z : Int) : Nat := (z % (2 ^ 64 : Int)).toNat

/-- Reinterpretation of an unsigned 64-bit value as a signed one
(the Rust cast `as i64`). -/
def toI64 (u : Nat) : Int := if u < 2 ^ 63 then (u : Int) else (u : Int) - 2 ^ 64

/-- Wrapping of an integer into the signed 64-bit range (release-mode Rust
addition `hsh + (i as i64)` wraps on overflow). -/
def wrapI64 (z : Int) : Int := toI64 (toU64 z)

/-- One step of the FNV-1a hash from the `fnv` crate: xor in a byte, then
multiply by the 64-bit FNV prime, wrapping mod `2 ^ 64`. -/
def fnvByte (h b : Nat) : Nat := Nat.xor h b * 0x100000001b3 % 2 ^ 64

/-- Byte `k` of the little-endian representation of a 64-bit value
(`Hasher::write_i64` feeds the native-endian bytes of the integer, which is
little-endian on the targets this crate runs on). -/
def leByte (u k : Nat) : Nat := u / 256 ^ k % 256

/-- The 64-bit FNV-1a hash of the 8 little-endian bytes of `u`, starting from
the FNV offset basis (`FnvHasher::default` followed by `write` of 8 bytes). -/
def fnv64 (u : Nat) : Nat :=
  ((List.range 8).map (leByte u)).foldl fnvByte 0xcbf29ce484222325

/-- Source function `hash` (embedding.rs lines 204-208): write the i64 into an
FNV hasher and reinterpret the 64-bit result as an i64. -/
def hash (num : Int) : Int := toI64 (fnv64 (toU64 num))

/-- The initializer's cell value (embedding.rs lines 70-71 and 280-281):
`((hash(hsh + (i as i64)) % max_hash) as f32) / max_hash_float` with
`max_hash = 8 * 1024 * 1024 = 2 ^ 23`.  Rust `%` on `i64` is the truncated
remainder, `Int.tmod`; the remainder has magnitude below `2 ^ 23`, hence is
converted to `f32` exactly, and the division by `2 ^ 23` is exact. -/
noncomputable def initValue (hsh : Int) (i : Nat) : ℝ :=
  (((hash (wrapI64 (hsh + (i : Int)))).tmod 8388608 : Int) : ℝ) / 8388608

/-- One sparse entry `(row, col, value)` as returned by
`SparseMatrixPersistor::get_entry`. -/
structure Entry where
  row : Nat
  col : Nat
  value : ℝ

/-- The read-only sparse-source interface consumed by both strategies:
entity count, per-index hash (`-1` marks an unused slot), the entry stream
(`get_amount_of_data` entries, iterated by index, modelled as a list),
hash-occurrence counts keyed by the `u64` cast of the hash, the matrix id
used to name generation files, and the run's dimension.  The source's
`normalize` call (embedding.rs lines 25 and 221) happens before any of the
modelled computation and only shapes the entry values, so the entries here
are the post-normalization ones. -/
structure SpMat where
  n : Nat
  dim : Nat
  hashOf : Nat → Int
  entries : List Entry
  occurrenceOf : Nat → Nat
  id : String

/-- Option-valued `List.map`: `none` as soon as `f` fails (a panic inside a
loop aborts the whole computation). -/
def mapO {α β : Type} (f : α → Option β) : List α → Option (List β)
  | [] => some []
  | a :: l =>
    match f a with
    | none => none
    | some b =>
      match mapO f l with
      | none => none
      | some bs => some (b :: bs)

/-- Semantics of `Vec::insert(j, v)`: panics (`none`) when `j` exceeds the
current length, otherwise shifts the suffix right. -/
def vecInsert (l : List ℝ) (j : Nat) (v : ℝ) : Option (List ℝ) :=
  if j ≤ l.length then some (l.take j ++ v :: l.drop j) else none

/-- Inner loop of `MatrixMultiplicator::initialize` (lines 67-74): for each
entity index, skip sentinel slots, otherwise `col.insert(j, value)`. -/
noncomputable def initColumnGo (S : SpMat) (i : Nat) : List Nat → List ℝ → Option (List ℝ)
  | [], col => some col
  | j :: js, col =>
    if S.hashOf j = -1 then initColumnGo S i js col
    else
      match vecInsert col j (initValue (S.hashOf j) i) with
      | none => none
      | some col2 => initColumnGo S i js col2

/-- One dimension column of `MatrixMultiplicator::initialize`. -/
noncomputable def initColumn (S : SpMat) (i : Nat) : Option (List ℝ) :=
  initColumnGo S i (List.range S.n) []

/-- `MatrixMultiplicator::initialize` (lines 51-84): one column per dimension
index, columns independent (the parallel map over `0..dimension`). -/
noncomputable def initMatrix (S : SpMat) : Option (List (List ℝ)) :=
  mapO (initColumn S) (List.range S.dim)

/-- Body of the per-column accumulation loop shared by
`MatrixMultiplicator::next_power` (lines 117-122) and
`MatrixMultiplicatorMMap::next_power` (lines 345-364): for each entry,
read the old value of column `col` through `read`, read-modify-write slot
`row` of the new column.  Either failed access is a panic. -/
noncomputable def accumulateEntries (read : Nat → Option ℝ) : List Entry → List ℝ → Option (List ℝ)
  | [], acc => some acc
  | e :: es, acc =>
    match read e.col, acc[e.row]? with
    | some v, some cur => accumulateEntries read es (acc.set e.row (cur + v * e.value))
    | _, _ => none

/-- `MatrixMultiplicator::next_power` (lines 106-128): each column of the
previous generation is folded against a fresh zero column of length
`entities_count` (`zero_2d`, lines 130-137). -/
noncomputable def nextPower (S : SpMat) (res : List (List ℝ)) : Option (List (List ℝ)) :=
  mapO (fun resCol =>
    accumulateEntries (fun c => resCol[c]?) S.entries (List.replicate S.n 0)) res

/-- In-place cell update loop `for j in 0..n { x[j] = g(j, x[j]) }` with
bounds-checked reads, shared by the `row_sum` accumulation and the division
pass of both `normalize` implementations. -/
noncomputable def updateCellsGo (g : Nat → ℝ → Option ℝ) : List Nat → List ℝ → Option (List ℝ)
  | [], l => some l
  | j :: js, l =>
    match l[j]? with
    | none => none
    | some v =>
      match g j v with
      | none => none
      | some w => updateCellsGo g js (l.set j w)

/-- Cell update over indices `0..n`. -/
noncomputable def updateCells (g : Nat → ℝ → Option ℝ) (n : Nat) (l : List ℝ) : Option (List ℝ) :=
  updateCellsGo g (List.range n) l

/-- The `row_sum` accumulation of `MatrixMultiplicator::normalize`
(lines 141-150): for `i in 0..dimension`, for `j in 0..entities_count`,
`row_sum[j] += res[i][j]^2`, every access `.unwrap()`ed. -/
noncomputable def sqSumGo (res : List (List ℝ)) (n : Nat) : List Nat → List ℝ → Option (List ℝ)
  | [], rs => some rs
  | i :: is, rs =>
    match res[i]? with
    | none => none
    | some col =>
      match updateCells (fun j s => col[j]?.map (fun x => s + x ^ 2)) n rs with
      | none => none
      | some rs2 => sqSumGo res n is rs2

/-- Squared row sums of the in-memory matrix. -/
noncomputable def sqSum (S : SpMat) (res : List (List ℝ)) : Option (List ℝ) :=
  sqSumGo res S.n (List.range S.dim) (List.replicate S.n 0)

/-- `MatrixMultiplicator::normalize` (lines 139-165): accumulate the squared
row sums, then divide every cell of every column by `row_sum[j].sqrt()` —
the division is *not* guarded against a zero sum. -/
noncomputable def normalizeCols (S : SpMat) (res : List (List ℝ)) : Option (List (List ℝ)) :=
  match sqSum S res with
  | none => none
  | some rs =>
    mapO (fun col =>
      updateCells (fun j v => rs[j]?.map (fun s => v / Real.sqrt s)) S.n col) res

/-- `MatrixMultiplicator::propagate` (lines 86-104): `max_iter` rounds of
`next_power` followed by `normalize`; with `max_iter = 0` the input matrix is
returned untouched. -/
noncomputable def propagateInMem (S : SpMat) : Nat → List (List ℝ) → Option (List (List ℝ))
  | 0, res => some res
  | k + 1, res =>
    match nextPower S res with
    | none => none
    | some nxt =>
      match normalizeCols S nxt with
      | none => none
      | some nor => propagateInMem S k nor

/-- One output-writer call (`EmbeddingPersistor`): the single metadata call,
one data call per retained entity, and the final `finish` call. -/
inductive OutEvent where
  | metadata (entityCount : Nat) (dimension : Nat)
  | data (name : String) (occurrence : Nat) (embedding : List ℝ)
  | finish

/-- The per-entity loop of `persist` (lines 181-196 and 428-449), shared by
the two strategies through `readCell j i` (value of dimension `j` at entity
`i`): an entity whose hash the mapping does not resolve is skipped silently;
for a resolved one the `dimension`-length vector is assembled and emitted. -/
def recordsGo (S : SpMat) (mapping : Nat → Option String)
    (readCell : Nat → Nat → Option ℝ) : List Nat → Option (List OutEvent)
  | [] => some []
  | i :: is =>
    match mapping (toU64 (S.hashOf i)) with
    | none => recordsGo S mapping readCell is
    | some name =>
      match mapO (fun j => readCell j i) (List.range S.dim) with
      | none => none
      | some vec =>
        match recordsGo S mapping readCell is with
        | none => none
        | some rest =>
          some (OutEvent.data name (S.occurrenceOf (toU64 (S.hashOf i))) vec :: rest)

/-- `persist` for either strategy: metadata, then the record loop over all
entity indices, then `finish`. -/
def persistWith (S : SpMat) (mapping : Nat → Option String)
    (readCell : Nat → Nat → Option ℝ) : Option (List OutEvent) :=
  match recordsGo S mapping readCell (List.range S.n) with
  | none => none
  | some recs => some (OutEvent.metadata S.n S.dim :: recs ++ [OutEvent.finish])

/-- `MatrixMultiplicator::persist` (lines 167-201): cells read from the
vector-of-columns, both lookups `.unwrap()`ed. -/
def persistInMem (S : SpMat) (mapping : Nat → Option String)
    (res : List (List ℝ)) : Option (List OutEvent) :=
  persistWith S mapping (fun j i => res[j]?.bind (fun col => col[i]?))

/-- `calculate_embeddings` (lines 15-37): initialize, propagate, persist. -/
noncomputable def calculateEmbeddings (S : SpMat) (maxIter : Nat)
    (mapping : Nat → Option String) : Option (List OutEvent) :=
  match initMatrix S with
  | none => none
  | some init =>
    match propagateInMem S maxIter init with
    | none => none
    | some res => persistInMem S mapping res

/-- A generation file, named `{matrix_id}_matrix_{iteration}` in the source;
the naming pattern is injective in the pair, so the file is modelled as the
pair (matrix id, iteration number). -/
abbrev GenFile := String × Nat

/-- A file-system operation of the disk-backed strategy.  `flushOp` is listed
because the source calls `mmap.flush()`, but the returned `Result` of every
such call is discarded (lines 299, 367, 410), so flush outcomes never feed
back into the run. -/
inductive FsOp where
  | createOp (f : GenFile)
  | setLenOp (f : GenFile)
  | mapOp (f : GenFile)
  | flushOp (f : GenFile)
  | removeOp (f : GenFile)
deriving DecidableEq

/-- One column of the memory-mapped first generation: the file is
zero-initialized by `set_len`, and the loop (lines 277-291) overwrites cell
`j` of chunk `i` only when the hash is not the sentinel. -/
noncomputable def mmapInitColumn (S : SpMat) (i : Nat) : List ℝ :=
  (List.range S.n).map (fun j =>
    if S.hashOf j = -1 then 0 else initValue (S.hashOf j) i)

/-- The flat column-major content written by
`MatrixMultiplicatorMMap::initialize`: chunk `i` holds dimension `i`
(`par_chunks_mut(entities_count * 4)` on a file of exactly
`entities_count * dimension * 4` bytes, 4-byte float cells). -/
noncomputable def mmapInitData (S : SpMat) : List ℝ :=
  ((List.range S.dim).map (mmapInitColumn S)).flatten

/-- `MatrixMultiplicatorMMap::initialize` (lines 249-301): create the
generation-0 file, size it, map it (`.unwrap()` on each, so a failure aborts;
the `memmap` crate also rejects mapping a zero-length file), fill it, then
`mmap.flush()` with the result discarded. -/
noncomputable def mmapInitMatrix (S : SpMat) (fail : FsOp → Bool) : Option (List ℝ) :=
  if fail (FsOp.createOp (S.id, 0)) then none
  else if fail (FsOp.setLenOp (S.id, 0)) then none
  else if S.n * S.dim = 0 ∨ fail (FsOp.mapOp (S.id, 0)) then none
  else some (mmapInitData S)

/-- The numeric content of `MatrixMultiplicatorMMap::next_power`
(lines 336-365): each output chunk `i` starts from the zero-initialized fresh
file and accumulates the entries, the old value read from the *whole* input
map at flat index `i * entities_count + col`, the new value read-modify-
written at cell `row` of the chunk. -/
noncomputable def mmapNextPowerData (S : SpMat) (input : List ℝ) : Option (List ℝ) :=
  match mapO (fun i =>
      accumulateEntries (fun c => input[i * S.n + c]?) S.entries
        (List.replicate S.n 0)) (List.range S.dim) with
  | none => none
  | some chunks => some chunks.flatten

/-- `MatrixMultiplicatorMMap::next_power` (lines 324-369): create, size and
map the file of generation `iter + 1` (each `.unwrap()`ed, zero size
rejected), compute into it, then `mmap_output.flush()` with the result
discarded. -/
noncomputable def mmapNextPowerF (S : SpMat) (fail : FsOp → Bool) (iter : Nat)
    (input : List ℝ) : Option (List ℝ) :=
  if fail (FsOp.createOp (S.id, iter + 1)) then none
  else if fail (FsOp.setLenOp (S.id, iter + 1)) then none
  else if S.n * S.dim = 0 ∨ fail (FsOp.mapOp (S.id, iter + 1)) then none
  else mmapNextPowerData S input

/-- The `row_sum` accumulation of `MatrixMultiplicatorMMap::normalize`
(lines 373-389): same loops as the in-memory one, the cell read at flat
offset `(i * entities_count + j) * 4` of the map. -/
noncomputable def mmapSqSumGo (m : List ℝ) (n : Nat) : List Nat → List ℝ → Option (List ℝ)
  | [], rs => some rs
  | i :: is, rs =>
    match updateCells (fun j s => m[i * n + j]?.map (fun x => s + x ^ 2)) n rs with
    | none => none
    | some rs2 => mmapSqSumGo m n is rs2

/-- Squared row sums of the memory-mapped matrix. -/
noncomputable def mmapSqSum (S : SpMat) (m : List ℝ) : Option (List ℝ) :=
  mmapSqSumGo m S.n (List.range S.dim) (List.replicate S.n 0)

/-- Chunk `i` of the flat map under `par_chunks_mut(entities_count * 4)`. -/
def chunkOf (m : List ℝ) (n i : Nat) : List ℝ := (m.drop (i * n)).take n

/-- `MatrixMultiplicatorMMap::normalize` (lines 371-412): accumulate the
squared row sums, then divide each cell of each chunk by `sum.sqrt()`
(unguarded), then `res.flush()` with the result discarded. -/
noncomputable def mmapNormalize (S : SpMat) (m : List ℝ) : Option (List ℝ) :=
  match mmapSqSum S m with
  | none => none
  | some rs =>
    match mapO (fun i =>
        updateCells (fun j v => rs[j]?.map (fun s => v / Real.sqrt s)) S.n
          (chunkOf m S.n i)) (List.range S.dim) with
    | none => none
    | some chunks => some chunks.flatten

/-- `MatrixMultiplicatorMMap::propagate` (lines 303-322): for
`i in 0..max_iter`, `next_power(i, res)` (which creates and flushes the file
of generation `i + 1`), `normalize` (which flushes it again), then
`fs::remove_file` of generation `i`, `.unwrap()`ed. -/
noncomputable def mmapPropagateF (S : SpMat) (fail : FsOp → Bool) :
    Nat → Nat → List ℝ → Option (List ℝ)
  | _, 0, m => some m
  | i, k + 1, m =>
    match mmapNextPowerF S fail i m with
    | none => none
    | some nxt =>
      match mmapNormalize S nxt with
      | none => none
      | some nor =>
        if fail (FsOp.removeOp (S.id, i)) then none
        else mmapPropagateF S fail (i + 1) k nor

/-- `MatrixMultiplicatorMMap::persist` (lines 414-454): cells read from the
flat map at offset `(j * entities_count + i) * 4`. -/
noncomputable def persistMmap (S : SpMat) (mapping : Nat → Option String)
    (m : List ℝ) : Option (List OutEvent) :=
  persistWith S mapping (fun j i => m[j * S.n + i]?)

/-- `calculate_embeddings_mmap` (lines 211-235): initialize, propagate,
persist, then `fs::remove_file` of the final generation `max_iter`,
`.unwrap()`ed. -/
noncomputable def calculateEmbeddingsMmap (S : SpMat) (maxIter : Nat)
    (mapping : Nat → Option String) (fail : FsOp → Bool) : Option (List OutEvent) :=
  match mmapInitMatrix S fail with
  | none => none
  | some m0 =>
    match mmapPropagateF S fail 0 maxIter m0 with
    | none => none
    | some m =>
      match persistMmap S mapping m with
      | none => none
      | some out =>
        if fail (FsOp.removeOp (S.id, maxIter)) then none else some out

/-- A file-system event of a completed disk-backed run, in program order. -/
inductive FsEvent where
  | create (f : GenFile)
  | flushEv (f : GenFile)
  | delete (f : GenFile)
deriving DecidableEq

/-- Events of iterations `i, i+1, ..., i+k-1` of
`MatrixMultiplicatorMMap::propagate`: each iteration creates the next
generation's file, flushes it at the end of `next_power`, flushes it again at
the end of `normalize`, and only then removes the previous generation's
file. -/
def propFrom (id : String) (i : Nat) : Nat → List FsEvent
  | 0 => []
  | k + 1 =>
    FsEvent.create (id, i + 1) :: FsEvent.flushEv (id, i + 1) ::
      FsEvent.flushEv (id, i + 1) :: FsEvent.delete (id, i) :: propFrom id (i + 1) k

/-- The file-system events of a completed `calculate_embeddings_mmap` run:
generation 0 is created and flushed by `initialize`, the iterations follow,
and after `persist` the final generation `max_iter` is removed (line 232). -/
def mmapFsTrace (id : String) (maxIter : Nat) : List FsEvent :=
  FsEvent.create (id, 0) :: FsEvent.flushEv (id, 0) ::
    (propFrom id 0 maxIter ++ [FsEvent.delete (id, maxIter)])

/-- Removal of the first occurrence of a file from a directory listing. -/
def fsErase (f : GenFile) : List GenFile → List GenFile
  | [] => []
  | g :: t => if g = f then t else g :: fsErase f t

/-- Effect of one event on the set of existing generation files: `create`
adds the file (creating an existing file truncates it, the listing is
unchanged), `flush` changes nothing, `delete` removes it. -/
def fsStep (s : List GenFile) : FsEvent → List GenFile
  | FsEvent.create f => if f ∈ s then s else f :: s
  | FsEvent.flushEv _ => s
  | FsEvent.delete f => fsErase f s

/-- Directory contents after a sequence of events. -/
def fsApply : List FsEvent → List GenFile → List GenFile
  | [], s => s
  | e :: t, s => fsApply t (fsStep s e)

/-- Number of occurrences of an event in a trace. -/
def occCount (x : FsEvent) : List FsEvent → Nat
  | [] => 0
  | e :: t => (if e = x then 1 else 0) + occCount x t

/-- The prefix of a trace strictly before the first occurrence of `x`. -/
def beforeEvent (x : FsEvent) : List FsEvent → List FsEvent
  | [] => []
  | e :: t => if e = x then [] else e :: beforeEvent x t

/-- Last event of a trace. -/
def lastOf : List FsEvent → Option FsEvent
  | [] => none
  | [e] => some e
  | _ :: e :: t => lastOf (e :: t)

/-- IEEE classification of an f32 division: a zero divisor yields NaN (for a
zero dividend) or an infinity (otherwise), in every case a non-finite value,
modelled as `none`; a nonzero divisor yields the finite real quotient. -/
noncomputable def fdivF (a b : ℝ) : Option ℝ := if b = 0 then none else some (a / b)

/-- The accumulated squared sum of entity `j` over all dimension columns,
`row_sum[j]` after the first loop of `normalize` (in-memory reading
`res[i][j]`, the loop over `i in 0..dimension`). -/
noncomputable def rowSumVal (dim : Nat) (res : List (List ℝ)) (j : Nat) : ℝ :=
  ((List.range dim).map (fun i => ((res[i]?.getD [])[j]?.getD 0) ^ 2)).sum

/-- Entity `j`'s cell in dimension `i` after the in-memory `normalize`
division `*value /= sum.sqrt()` (line 159), with the f32 division-by-zero
behaviour made explicit through `fdivF`. -/
noncomputable def normCellInMemF (dim : Nat) (res : List (List ℝ)) (i j : Nat) : Option ℝ :=
  fdivF ((res[i]?.getD [])[j]?.getD 0) (Real.sqrt (rowSumVal dim res j))

/-- The accumulated squared sum of entity `j` in the disk-backed `normalize`
(lines 375-389), cells read at flat offset `i * entities_count + j`. -/
noncomputable def mmapRowSumVal (S : SpMat) (m : List ℝ) (j : Nat) : ℝ :=
  ((List.range S.dim).map (fun i => (m[i * S.n + j]?.getD 0) ^ 2)).sum

/-- Entity `j`'s cell in chunk `i` after the disk-backed `normalize` division
`*value /= sum.sqrt()` (line 405), with the f32 division-by-zero behaviour
made explicit through `fdivF`. -/
noncomputable def normCellMmapF (S : SpMat) (m : List ℝ) (i j : Nat) : Option ℝ :=
  fdivF (m[i * S.n + j]?.getD 0) (Real.sqrt (mmapRowSumVal S m j))

/-- Total contribution to row `r` of the entries whose `row` field is `r`,
the old value of column `col` read through `read`. -/
noncomputable def entrySumR (read : Nat → Option ℝ) (es : List Entry) (r : Nat) : ℝ :=
  ((es.filter (fun e => e.row = r)).map (fun e => (read e.col).getD 0 * e.value)).sum

/-- The sum that the claim about `next_power` attributes to the new cell
`(i, row)`: contributions of exactly the entries whose `row` field matches,
each `old[i][col] * value`. -/
noncomputable def entrySum (col : List ℝ) (es : List Entry) (r : Nat) : ℝ :=
  entrySumR (fun c => col[c]?) es r

/-- Shape invariant of an in-memory generation: one column per dimension,
each of length `entities_count`. -/
def WF (S : SpMat) (cols : List (List ℝ)) : Prop :=
  cols.length = S.dim ∧ ∀ c ∈ cols, c.length = S.n

/-- Entries referencing only indices below `entities_count`. -/
def EntriesOk (S : SpMat) : Prop := ∀ e ∈ S.entries, e.row < S.n ∧ e.col < S.n

/-- Closed form of one accumulated column: cell `r` collects the
contributions of exactly the entries with `row = r`. -/
noncomputable def nextColumn (S : SpMat) (col : List ℝ) : List ℝ :=
  (List.range S.n).map (fun r => entrySum col S.entries r)

/-- Closed form of one normalized column of the generation `res`: cell `j`
divided by the square root of entity `j`'s squared sum. -/
noncomputable def normColumn (S : SpMat) (res : List (List ℝ)) (col : List ℝ) : List ℝ :=
  (List.range S.n).map (fun j => col[j]?.getD 0 / Real.sqrt (rowSumVal S.dim res j))

/-- A failure oracle that only ever fails flush operations. -/
def FlushOnly (fail : FsOp → Bool) : Prop :=
  ∀ op, fail op = true → ∃ f, op = FsOp.flushOp f

/-- The embedding vector assembled by `persist` for entity `i`: dimension `j`
read from column `j` at position `i`. -/
noncomputable def persistVec (S : SpMat) (cols : List (List ℝ)) (i : Nat) : List ℝ :=
  (List.range S.dim).map (fun j => (cols[j]?.getD [])[i]?.getD 0)

/-- The optional output record of entity `i`: present exactly when the
entity-mapping lookup resolves the `u64` cast of the entity's hash. -/
noncomputable def recordOf (S : SpMat) (mapping : Nat → Option String)
    (cols : List (List ℝ)) (i : Nat) : Option OutEvent :=
  (mapping (toU64 (S.hashOf i))).map (fun name =>
    OutEvent.data name (S.occurrenceOf (toU64 (S.hashOf i))) (persistVec S cols i))

/-- A concrete sparse source used to exercise the theorems on explicit
inputs: every hash occurrence count is 5 and the matrix id is the string m. -/
noncomputable def sampleS (n dim : Nat) (hashOf : Nat → Int) (entries : List Entry) : SpMat :=
  ⟨n, dim, hashOf, entries, fun _ => 5, "m"⟩

/-- A failure oracle under which every flush fails and every other
file-system operation succeeds. -/
def flushFailOracle : FsOp → Bool := fun op =>
  match op with
  | FsOp.flushOp _ => true
  | _ => false

/-- Reference checks of the FNV-1a model against values computed with the
`fnv` crate: `hash(4)`, `hash(0)` and `hash(10)` reduced modulo `2 ^ 23`
with Rust semantics. -/
theorem hash_check_4 : (hash 4).tmod 8388608 = 6099265 := by decide

theorem hash_check_0 : (hash 0).tmod 8388608 = -6669883 := by decide

theorem hash_check_10 : (hash 10).tmod 8388608 = -844017 := by decide

theorem entrySumR_nil (read : Nat → Option ℝ) (r : Nat) : entrySumR read [] r = 0 := rfl

theorem entrySumR_cons (read : Nat → Option ℝ) (e : Entry) (es : List Entry) (r : Nat) :
    entrySumR read (e :: es) r =
      (if e.row = r then (read e.col).getD 0 * e.value else 0) + entrySumR read es r := by
  by_cases h : e.row = r <;> simp [entrySumR, List.filter_cons, h]

theorem updateCellsGo_spec (g : Nat → ℝ → Option ℝ) (f : Nat → ℝ → ℝ) :
    ∀ (js : List Nat) (l : List ℝ), (∀ j ∈ js, j < l.length) →
      (∀ j ∈ js, ∀ v, g j v = some (f j v)) → js.Nodup →
      ∃ out, updateCellsGo g js l = some out ∧ out.length = l.length ∧
        (∀ r ∈ js, out[r]? = some (f r (l[r]?.getD 0))) ∧
        (∀ r, r ∉ js → out[r]? = l[r]?)
  | [], l, _, _, _ => ⟨l, rfl, rfl, by simp, fun _ _ => rfl⟩
  | j :: js, l, hb, hg, hnd => by
    have hj : j < l.length := hb j (List.mem_cons_self j js)
    have hv : l[j]? = some l[j] := List.getElem?_eq_getElem hj
    have hgj := hg j (List.mem_cons_self j js) l[j]
    have hnd2 := (List.nodup_cons.mp hnd)
    obtain ⟨out, hout, hlen, hin, hnin⟩ :=
      updateCellsGo_spec g f js (l.set j (f j l[j]))
        (by intro x hx; simpa using hb x (List.mem_cons_of_mem j hx))
        (fun x hx => hg x (List.mem_cons_of_mem j hx)) hnd2.2
    refine ⟨out, ?_, by simpa using hlen, ?_, ?_⟩
    · simp [updateCellsGo, hv, hgj, hout]
    · intro r hr
      rcases List.mem_cons.mp hr with rfl | hr2
      · rw [hnin r hnd2.1, List.getElem?_set_self hj, hv]
        rfl
      · rw [hin r hr2]
        have hne : j ≠ r := fun h => hnd2.1 (h ▸ hr2)
        rw [List.getElem?_set_ne hne]
    · intro r hr
      have h1 : r ∉ js := fun h => hr (List.mem_cons_of_mem j h)
      have h2 : j ≠ r := fun h => hr (h ▸ List.mem_cons_self j js)
      rw [hnin r h1, List.getElem?_set_ne h2]

theorem updateCells_spec (g : Nat → ℝ → Option ℝ) (f : Nat → ℝ → ℝ) (n : Nat)
    (l : List ℝ) (hl : l.length = n) (hg : ∀ j < n, ∀ v, g j v = some (f j v)) :
    ∃ out, updateCells g n l = some out ∧ out.length = n ∧
      ∀ r, out[r]? = if r < n then some (f r (l[r]?.getD 0)) else none := by
  obtain ⟨out, hout, hlen, hin, hnin⟩ :=
    updateCellsGo_spec g f (List.range n) l
      (by intro j hj; rw [hl]; exact List.mem_range.mp hj)
      (fun j hj => hg j (List.mem_range.mp hj)) (List.nodup_range n)
  refine ⟨out, hout, hl ▸ hlen, fun r => ?_⟩
  by_cases hr : r < n
  · rw [if_pos hr]; exact hin r (List.mem_range.mpr hr)
  · rw [if_neg hr, hnin r (fun h => hr (List.mem_range.mp h))]
    exact List.getElem?_eq_none (by omega)

theorem accumulateEntries_spec (read : Nat → Option ℝ) :
    ∀ (es : List Entry) (acc : List ℝ),
      (∀ e ∈ es, e.row < acc.length ∧ (read e.col).isSome) →
      ∃ out, accumulateEntries read es acc = some out ∧ out.length = acc.length ∧
        ∀ r, r < acc.length → out[r]? = some (acc[r]?.getD 0 + entrySumR read es r)
  | [], acc, _ => by
    refine ⟨acc, rfl, rfl, fun r hr => ?_⟩
    rw [entrySumR_nil, add_zero, List.getElem?_eq_getElem hr]
    rfl
  | e :: es, acc, hb => by
    have he := hb e (List.mem_cons_self e es)
    obtain ⟨v, hv⟩ := Option.isSome_iff_exists.mp he.2
    have hrb : e.row < acc.length := he.1
    have hrow : acc[e.row]? = some acc[e.row] := List.getElem?_eq_getElem hrb
    obtain ⟨out, hout, hlen, hin⟩ :=
      accumulateEntries_spec read es (acc.set e.row (acc[e.row] + v * e.value))
        (by intro x hx; simpa using hb x (List.mem_cons_of_mem e hx))
    refine ⟨out, ?_, by simpa using hlen, fun r hr => ?_⟩
    · simp [accumulateEntries, hv, hrow, hout]
    · rw [hin r (by simpa using hr), entrySumR_cons]
      by_cases hre : e.row = r
      · subst hre
        simp [List.getElem?_set_self he.1, List.getElem?_eq_getElem hr, hv, add_assoc]
      · rw [List.getElem?_set_ne hre]
        simp [hre]

theorem eq_range_map {β : Type} (h : Nat → β) (out : List β) (n : Nat)
    (hlen : out.length = n) (hp : ∀ r < n, out[r]? = some (h r)) :
    out = (List.range n).map h := by
  apply List.ext_getElem?
  intro i
  by_cases hi : i < n
  · rw [hp i hi, List.getElem?_map, List.getElem?_range hi]
    rfl
  · rw [List.getElem?_eq_none (by omega), List.getElem?_eq_none (by simpa using hi)]

theorem mapO_spec {α β : Type} (f : α → Option β) (g : α → β) :
    ∀ l : List α, (∀ a ∈ l, f a = some (g a)) → mapO f l = some (l.map g)
  | [], _ => rfl
  | a :: l, h => by
    rw [List.map_cons]
    simp [mapO, h a (List.mem_cons_self a l),
      mapO_spec f g l (fun x hx => h x (List.mem_cons_of_mem a hx))]

theorem initColumnGo_append (S : SpMat) (i : Nat) :
    ∀ (js1 js2 : List Nat) (col : List ℝ),
      initColumnGo S i (js1 ++ js2) col =
        match initColumnGo S i js1 col with
        | none => none
        | some c => initColumnGo S i js2 c
  | [], _, _ => rfl
  | j :: js1, js2, col => by
    by_cases h : S.hashOf j = -1 <;> simp [initColumnGo, h]
    · exact initColumnGo_append S i js1 js2 col
    · cases vecInsert col j (initValue (S.hashOf j) i) <;>
        simp [initColumnGo_append S i js1 js2]

theorem initColumnGo_valid (S : SpMat) (i : Nat) :
    ∀ (b a : Nat) (col : List ℝ), col.length = a →
      (∀ j, a ≤ j → j < a + b → S.hashOf j ≠ -1) →
      initColumnGo S i (List.range' a b) col =
        some (col ++ (List.range' a b).map (fun j => initValue (S.hashOf j) i))
  | 0, a, col, _, _ => by simp [List.range', initColumnGo]
  | b + 1, a, col, hlen, hval => by
    rw [List.range'_succ]
    have hv : S.hashOf a ≠ -1 := hval a (Nat.le_refl a) (by omega)
    have hins : vecInsert col a (initValue (S.hashOf a) i) =
        some (col ++ [initValue (S.hashOf a) i]) := by
      rw [vecInsert, if_pos (by omega)]
      rw [List.take_of_length_le (by omega), List.drop_of_length_le (by omega)]
    rw [List.map_cons]
    simp only [initColumnGo, if_neg hv, hins]
    rw [initColumnGo_valid S i b (a + 1) _ (by simp [hlen])
      (fun j h1 h2 => hval j (by omega) (by omega))]
    simp

theorem initColumnGo_sentinel (S : SpMat) (i : Nat) :
    ∀ (js : List Nat) (col : List ℝ), (∀ j ∈ js, S.hashOf j = -1) →
      initColumnGo S i js col = some col
  | [], _, _ => rfl
  | j :: js, col, h => by
    rw [initColumnGo, if_pos (h j (List.mem_cons_self j js))]
    exact initColumnGo_sentinel S i js col (fun x hx => h x (List.mem_cons_of_mem j hx))

/-- Closed form of one initializer column when the valid slots are exactly
the indices below `k` (the sentinel slots form a suffix). -/
theorem initColumn_layout (S : SpMat) (i k : Nat) (hk : k ≤ S.n)
    (hlay : ∀ j < S.n, (S.hashOf j = -1 ↔ k ≤ j)) :
    initColumn S i = some ((List.range k).map (fun j => initValue (S.hashOf j) i)) := by
  rw [initColumn, List.range_eq_range']
  have hsplit : List.range' 0 S.n = List.range' 0 k ++ List.range' k (S.n - k) := by
    have h0 := List.range'_append_1 0 k (S.n - k)
    rw [Nat.zero_add] at h0
    rw [h0]
    congr 1
    omega
  rw [hsplit, initColumnGo_append]
  rw [initColumnGo_valid S i k 0 [] rfl
    (fun j h1 h2 => fun he => by have := (hlay j (by omega)).mp he; omega)]
  show initColumnGo S i (List.range' k (S.n - k))
      ([] ++ (List.range' 0 k).map (fun j => initValue (S.hashOf j) i)) = _
  rw [initColumnGo_sentinel S i _ _
    (fun j hj => by
      have hj2 := List.mem_range'_1.mp hj
      exact (hlay j (by omega)).mpr (by omega))]
  rw [List.nil_append, List.range_eq_range']

/-- Closed form of the whole in-memory initializer under a suffix sentinel
layout: every column holds exactly the `k` valid entities' values, in index
order; sentinel entities have no slot at all. -/
theorem initMatrix_layout (S : SpMat) (k : Nat) (hk : k ≤ S.n)
    (hlay : ∀ j < S.n, (S.hashOf j = -1 ↔ k ≤ j)) :
    initMatrix S = some ((List.range S.dim).map
      (fun i => (List.range k).map (fun j => initValue (S.hashOf j) i))) :=
  mapO_spec _ _ _ (fun i _ => initColumn_layout S i k hk hlay)

theorem flatten_length_uniform (n : Nat) :
    ∀ cols : List (List ℝ), (∀ c ∈ cols, c.length = n) →
      cols.flatten.length = cols.length * n
  | [], _ => by simp
  | c :: cols, h => by
    have hc := h c (List.mem_cons_self c cols)
    simp only [List.flatten_cons, List.length_append, List.length_cons,
      flatten_length_uniform n cols (fun x hx => h x (List.mem_cons_of_mem c hx)), hc]
    ring

theorem flatten_cell (n : Nat) :
    ∀ (cols : List (List ℝ)), (∀ c ∈ cols, c.length = n) →
      ∀ i j, j < n → cols.flatten[i * n + j]? = (cols[i]?.getD [])[j]?
  | [], _, i, j, _ => by simp
  | c :: cols, h, i, j, hj => by
    have hc := h c (List.mem_cons_self c cols)
    match i with
    | 0 =>
      rw [List.flatten_cons, List.getElem?_append_left (by omega)]
      simp
    | i + 1 =>
      rw [List.flatten_cons, List.getElem?_append_right (by nlinarith)]
      have harith : (i + 1) * n + j - c.length = i * n + j := by
        rw [hc]; ring_nf; omega
      rw [harith,
        flatten_cell n cols (fun x hx => h x (List.mem_cons_of_mem c hx)) i j hj]
      simp

theorem chunkOf_flatten (n : Nat) (cols : List (List ℝ))
    (h : ∀ c ∈ cols, c.length = n) (i : Nat) (hi : i < cols.length) :
    chunkOf cols.flatten n i = cols[i]?.getD [] := by
  apply List.ext_getElem?
  intro j
  rw [chunkOf, List.getElem?_take]
  by_cases hj : j < n
  · rw [if_pos hj, List.getElem?_drop, (by ring : i * n + j = j + i * n)]
    rw [(by ring : j + i * n = i * n + j), flatten_cell n cols h i j hj]
  · rw [if_neg hj]
    have hcol : cols[i]? = some cols[i] := List.getElem?_eq_getElem hi
    rw [hcol]
    have : cols[i].length = n := h _ (List.getElem_mem hi)
    exact (List.getElem?_eq_none (by simp [Option.getD, this]; omega)).symm

theorem map_eq_range_map {β : Type} (f : List ℝ → β) (cols : List (List ℝ)) :
    cols.map f = (List.range cols.length).map (fun i => f (cols[i]?.getD [])) := by
  apply eq_range_map
  · simp
  · intro r hr
    rw [List.getElem?_map, List.getElem?_eq_getElem hr]
    simp [List.getElem?_eq_getElem hr]

theorem accumulateEntries_congr (read1 read2 : Nat → Option ℝ) :
    ∀ (es : List Entry) (acc : List ℝ), (∀ e ∈ es, read1 e.col = read2 e.col) →
      accumulateEntries read1 es acc = accumulateEntries read2 es acc
  | [], _, _ => rfl
  | e :: es, acc, h => by
    rw [accumulateEntries, accumulateEntries, h e (List.mem_cons_self e es)]
    cases read2 e.col <;> cases acc[e.row]? <;>
      simp [accumulateEntries_congr read1 read2 es _
        (fun x hx => h x (List.mem_cons_of_mem e hx))]

theorem entrySumR_congr (read1 read2 : Nat → Option ℝ) (es : List Entry) (r : Nat)
    (h : ∀ e ∈ es, read1 e.col = read2 e.col) :
    entrySumR read1 es r = entrySumR read2 es r := by
  unfold entrySumR
  congr 1
  apply List.map_congr_left
  intro e he
  rw [h e (List.mem_of_mem_filter he)]

theorem accumulateEntries_closed (S : SpMat) (col : List ℝ)
    (hb : ∀ e ∈ S.entries, e.row < S.n ∧ e.col < col.length) :
    accumulateEntries (fun c => col[c]?) S.entries (List.replicate S.n 0) =
      some (nextColumn S col) := by
  obtain ⟨out, hout, hlen, hp⟩ :=
    accumulateEntries_spec (fun c => col[c]?) S.entries (List.replicate S.n 0)
      (by
        intro e he
        refine ⟨by simpa using (hb e he).1, ?_⟩
        rw [Option.isSome_iff_exists]
        exact ⟨_, List.getElem?_eq_getElem (hb e he).2⟩)
  rw [hout, nextColumn]
  congr 1
  apply eq_range_map
  · simpa using hlen
  · intro r hr
    rw [hp r (by simpa using hr), List.getElem?_replicate_of_lt hr]
    rw [entrySum]
    norm_num

theorem nextPower_closed (S : SpMat) (res : List (List ℝ))
    (hres : ∀ c ∈ res, c.length = S.n) (hok : EntriesOk S) :
    nextPower S res = some (res.map (nextColumn S)) :=
  mapO_spec _ _ res (fun col hcol =>
    accumulateEntries_closed S col (fun e he =>
      ⟨(hok e he).1, by rw [hres col hcol]; exact (hok e he).2⟩))

theorem mmapNextPowerData_closed (S : SpMat) (cols : List (List ℝ))
    (hwf : WF S cols) (hok : EntriesOk S) :
    mmapNextPowerData S cols.flatten = some ((cols.map (nextColumn S)).flatten) := by
  rw [mmapNextPowerData]
  have hstep : ∀ i ∈ List.range S.dim,
      accumulateEntries (fun c => cols.flatten[i * S.n + c]?) S.entries
        (List.replicate S.n 0) = some (nextColumn S (cols[i]?.getD [])) := by
    intro i hi
    have hi2 : i < cols.length := by rw [hwf.1]; exact List.mem_range.mp hi
    have hilen : (cols[i]?.getD []).length = S.n := by
      rw [List.getElem?_eq_getElem hi2]
      exact hwf.2 _ (List.getElem_mem hi2)
    rw [accumulateEntries_congr _ (fun c => (cols[i]?.getD [])[c]?) _ _
      (fun e he => flatten_cell S.n cols hwf.2 i e.col (hok e he).2)]
    exact accumulateEntries_closed S _ (fun e he => ⟨(hok e he).1, by
      rw [hilen]; exact (hok e he).2⟩)
  rw [mapO_spec _ (fun i => nextColumn S (cols[i]?.getD [])) _ hstep]
  rw [map_eq_range_map (nextColumn S) cols, hwf.1]

theorem sqSumGo_spec (res : List (List ℝ)) (n : Nat) :
    ∀ (is : List Nat) (rs : List ℝ), rs.length = n →
      (∀ i ∈ is, (res[i]?.getD []).length = n ∧ (res[i]?).isSome) →
      ∃ out, sqSumGo res n is rs = some out ∧ out.length = n ∧
        ∀ j, j < n → out[j]? = some (rs[j]?.getD 0 +
          (is.map (fun i => ((res[i]?.getD [])[j]?.getD 0) ^ 2)).sum)
  | [], rs, hlen, _ => ⟨rs, rfl, hlen, fun j hj => by
      rw [List.getElem?_eq_getElem (by omega)]
      simp⟩
  | i :: is, rs, hlen, hres => by
    have hi := hres i (List.mem_cons_self i is)
    obtain ⟨col, hcol⟩ := Option.isSome_iff_exists.mp hi.2
    have hcollen : col.length = n := by
      have := hi.1
      rwa [hcol, Option.getD] at this
    obtain ⟨rs2, hrs2, hlen2, hp2⟩ :=
      updateCells_spec (fun j s => col[j]?.map (fun x => s + x ^ 2))
        (fun j s => s + (col[j]?.getD 0) ^ 2) n rs hlen
        (fun j hj v => by
          have hjc : j < col.length := by omega
          have hcj : col[j]? = some col[j] := List.getElem?_eq_getElem hjc
          simp [hcj])
    obtain ⟨out, hout, hlen3, hp3⟩ :=
      sqSumGo_spec res n is rs2 hlen2
        (fun x hx => hres x (List.mem_cons_of_mem i hx))
    refine ⟨out, ?_, hlen3, fun j hj => ?_⟩
    · simp [sqSumGo, hcol, hrs2, hout]
    · rw [hp3 j hj, hp2 j, if_pos hj, List.map_cons, List.sum_cons, hcol]
      simp [add_assoc]

theorem sqSum_spec (S : SpMat) (res : List (List ℝ)) (hwf : WF S res) :
    ∃ rs, sqSum S res = some rs ∧ rs.length = S.n ∧
      ∀ j, j < S.n → rs[j]? = some (rowSumVal S.dim res j) := by
  obtain ⟨rs, hrs, hlen, hp⟩ :=
    sqSumGo_spec res S.n (List.range S.dim) (List.replicate S.n 0) (by simp)
      (by
        intro i hi
        have hi2 : i < res.length := by rw [hwf.1]; exact List.mem_range.mp hi
        rw [List.getElem?_eq_getElem hi2]
        exact ⟨hwf.2 _ (List.getElem_mem hi2), rfl⟩)
  refine ⟨rs, hrs, hlen, fun j hj => ?_⟩
  rw [hp j hj, List.getElem?_replicate_of_lt hj, rowSumVal]
  norm_num

theorem mmapSqSumGo_spec (m : List ℝ) (n : Nat) :
    ∀ (is : List Nat) (rs : List ℝ), rs.length = n →
      (∀ i ∈ is, ∀ j < n, (m[i * n + j]?).isSome) →
      ∃ out, mmapSqSumGo m n is rs = some out ∧ out.length = n ∧
        ∀ j, j < n → out[j]? = some (rs[j]?.getD 0 +
          (is.map (fun i => (m[i * n + j]?.getD 0) ^ 2)).sum)
  | [], rs, hlen, _ => ⟨rs, rfl, hlen, fun j hj => by
      rw [List.getElem?_eq_getElem (by omega)]
      simp⟩
  | i :: is, rs, hlen, hm => by
    have hi := hm i (List.mem_cons_self i is)
    obtain ⟨rs2, hrs2, hlen2, hp2⟩ :=
      updateCells_spec (fun j s => m[i * n + j]?.map (fun x => s + x ^ 2))
        (fun j s => s + (m[i * n + j]?.getD 0) ^ 2) n rs hlen
        (fun j hj v => by
          obtain ⟨x, hx⟩ := Option.isSome_iff_exists.mp (hi j hj)
          simp [hx])
    obtain ⟨out, hout, hlen3, hp3⟩ :=
      mmapSqSumGo_spec m n is rs2 hlen2
        (fun x hx => hm x (List.mem_cons_of_mem i hx))
    refine ⟨out, ?_, hlen3, fun j hj => ?_⟩
    · simp [mmapSqSumGo, hrs2, hout]
    · rw [hp3 j hj, hp2 j, if_pos hj, List.map_cons, List.sum_cons]
      simp [add_assoc]

theorem mmapRowSumVal_flatten (S : SpMat) (cols : List (List ℝ))
    (hc : ∀ c ∈ cols, c.length = S.n) (j : Nat) (hj : j < S.n) :
    mmapRowSumVal S cols.flatten j = rowSumVal S.dim cols j := by
  rw [mmapRowSumVal, rowSumVal]
  congr 1
  apply List.map_congr_left
  intro i _
  rw [flatten_cell S.n cols hc i j hj]

theorem normalizeCols_closed (S : SpMat) (res : List (List ℝ)) (hwf : WF S res) :
    normalizeCols S res = some (res.map (normColumn S res)) := by
  obtain ⟨rs, hrs, hlen, hp⟩ := sqSum_spec S res hwf
  rw [normalizeCols, hrs]
  apply mapO_spec
  intro col hcol
  obtain ⟨out, hout, hlen2, hp2⟩ :=
    updateCells_spec (fun j v => rs[j]?.map (fun s => v / Real.sqrt s))
      (fun j v => v / Real.sqrt (rowSumVal S.dim res j)) S.n col (hwf.2 col hcol)
      (fun j hj v => by simp [hp j hj])
  rw [hout, normColumn]
  congr 1
  apply eq_range_map
  · exact hlen2
  · intro r hr
    rw [hp2 r, if_pos hr]

theorem mmapNormalize_closed (S : SpMat) (cols : List (List ℝ)) (hwf : WF S cols) :
    mmapNormalize S cols.flatten = some ((cols.map (normColumn S cols)).flatten) := by
  obtain ⟨rs, hrs, hlen, hp⟩ :=
    mmapSqSumGo_spec cols.flatten S.n (List.range S.dim) (List.replicate S.n 0)
      (by simp)
      (by
        intro i hi j hj
        have hi2 : i < cols.length := by rw [hwf.1]; exact List.mem_range.mp hi
        rw [flatten_cell S.n cols hwf.2 i j hj, List.getElem?_eq_getElem hi2]
        rw [Option.isSome_iff_exists]
        have : j < cols[i].length := by rw [hwf.2 _ (List.getElem_mem hi2)]; omega
        exact ⟨_, List.getElem?_eq_getElem this⟩)
  have hp2 : ∀ j, j < S.n → rs[j]? = some (rowSumVal S.dim cols j) := by
    intro j hj
    rw [hp j hj, List.getElem?_replicate_of_lt hj,
      ← mmapRowSumVal_flatten S cols hwf.2 j hj, mmapRowSumVal]
    norm_num
  have hstep : ∀ i ∈ List.range S.dim,
      updateCells (fun j v => rs[j]?.map (fun s => v / Real.sqrt s)) S.n
        (chunkOf cols.flatten S.n i) = some (normColumn S cols (cols[i]?.getD [])) := by
    intro i hi
    have hi2 : i < cols.length := by rw [hwf.1]; exact List.mem_range.mp hi
    rw [chunkOf_flatten S.n cols hwf.2 i hi2]
    have hclen : (cols[i]?.getD []).length = S.n := by
      rw [List.getElem?_eq_getElem hi2]
      exact hwf.2 _ (List.getElem_mem hi2)
    obtain ⟨out, hout, hlen2, hp3⟩ :=
      updateCells_spec (fun j v => rs[j]?.map (fun s => v / Real.sqrt s))
        (fun j v => v / Real.sqrt (rowSumVal S.dim cols j)) S.n _ hclen
        (fun j hj v => by simp [hp2 j hj])
    rw [hout, normColumn]
    congr 1
    apply eq_range_map
    · exact hlen2
    · intro r hr
      rw [hp3 r, if_pos hr]
  have hmap := mapO_spec _ (fun i => normColumn S cols (cols[i]?.getD [])) _ hstep
  simp only [mmapNormalize, show mmapSqSum S cols.flatten = some rs from hrs, hmap]
  rw [map_eq_range_map (normColumn S cols) cols, hwf.1]

theorem WF_nextColumn (S : SpMat) (cols : List (List ℝ)) (hwf : WF S cols) :
    WF S (cols.map (nextColumn S)) := by
  refine ⟨by simpa using hwf.1, ?_⟩
  intro c hc
  obtain ⟨col, _, rfl⟩ := List.mem_map.mp hc
  simp [nextColumn]

theorem WF_normColumn (S : SpMat) (res cols : List (List ℝ)) (hwf : WF S cols) :
    WF S (cols.map (normColumn S res)) := by
  refine ⟨by simpa using hwf.1, ?_⟩
  intro c hc
  obtain ⟨col, _, rfl⟩ := List.mem_map.mp hc
  simp [normColumn]

theorem FlushOnly_false (fail : FsOp → Bool) (hfo : FlushOnly fail) (op : FsOp)
    (hop : ∀ f : GenFile, op ≠ FsOp.flushOp f) : fail op = false := by
  cases hv : fail op
  · rfl
  · obtain ⟨f, hf⟩ := hfo op hv
    exact absurd hf (hop f)

theorem propagate_equiv (S : SpMat) (hok : EntriesOk S) (hnd : S.n * S.dim ≠ 0)
    (fail : FsOp → Bool) (hfo : FlushOnly fail) :
    ∀ (k i : Nat) (cols : List (List ℝ)), WF S cols →
      ∃ cols2, propagateInMem S k cols = some cols2 ∧ WF S cols2 ∧
        mmapPropagateF S fail i k cols.flatten = some cols2.flatten
  | 0, i, cols, hwf => ⟨cols, rfl, hwf, rfl⟩
  | k + 1, i, cols, hwf => by
    have hnext := nextPower_closed S cols hwf.2 hok
    have hwfn := WF_nextColumn S cols hwf
    have hnorm := normalizeCols_closed S (cols.map (nextColumn S)) hwfn
    have hwfn2 := WF_normColumn S (cols.map (nextColumn S)) (cols.map (nextColumn S)) hwfn
    obtain ⟨cols2, h1, h2, h3⟩ :=
      propagate_equiv S hok hnd fail hfo k (i + 1)
        ((cols.map (nextColumn S)).map (normColumn S (cols.map (nextColumn S)))) hwfn2
    refine ⟨cols2, ?_, h2, ?_⟩
    · simp only [propagateInMem, hnext, hnorm]
      exact h1
    · have hc : fail (FsOp.createOp (S.id, i + 1)) = false :=
        FlushOnly_false fail hfo _ (fun f => by simp)
      have hs : fail (FsOp.setLenOp (S.id, i + 1)) = false :=
        FlushOnly_false fail hfo _ (fun f => by simp)
      have hm : fail (FsOp.mapOp (S.id, i + 1)) = false :=
        FlushOnly_false fail hfo _ (fun f => by simp)
      have hr : fail (FsOp.removeOp (S.id, i)) = false :=
        FlushOnly_false fail hfo _ (fun f => by simp)
      have hdata := mmapNextPowerData_closed S cols hwf hok
      have hnorm2 := mmapNormalize_closed S (cols.map (nextColumn S)) hwfn
      simp only [mmapPropagateF, mmapNextPowerF, hc, hs, hm, hr, Bool.false_eq_true,
        if_false, or_false, if_neg hnd, hdata, hnorm2]
      exact h3

theorem mapO_congr {α β : Type} (f g : α → Option β) :
    ∀ l : List α, (∀ a ∈ l, f a = g a) → mapO f l = mapO g l
  | [], _ => rfl
  | a :: l, h => by
    rw [mapO, mapO, h a (List.mem_cons_self a l),
      mapO_congr f g l (fun x hx => h x (List.mem_cons_of_mem a hx))]

theorem recordsGo_congr (S : SpMat) (mapping : Nat → Option String)
    (read1 read2 : Nat → Nat → Option ℝ) :
    ∀ is : List Nat, (∀ i ∈ is, ∀ j < S.dim, read1 j i = read2 j i) →
      recordsGo S mapping read1 is = recordsGo S mapping read2 is
  | [], _ => rfl
  | i :: is, h => by
    have htl := recordsGo_congr S mapping read1 read2 is
      (fun x hx => h x (List.mem_cons_of_mem i hx))
    have hmap : mapO (fun j => read1 j i) (List.range S.dim) =
        mapO (fun j => read2 j i) (List.range S.dim) :=
      mapO_congr _ _ _ (fun j hj => h i (List.mem_cons_self i is) j (List.mem_range.mp hj))
    rw [recordsGo, recordsGo]
    cases mapping (toU64 (S.hashOf i))
    · exact htl
    · rw [hmap]
      cases mapO (fun j => read2 j i) (List.range S.dim)
      · rfl
      · rw [htl]

theorem recordsGo_closed (S : SpMat) (mapping : Nat → Option String)
    (cols : List (List ℝ)) (hwf : WF S cols) :
    ∀ is : List Nat, (∀ i ∈ is, i < S.n) →
      recordsGo S mapping (fun j i => cols[j]?.bind (fun col => col[i]?)) is =
        some (is.filterMap (recordOf S mapping cols))
  | [], _ => rfl
  | i :: is, h => by
    have hi := h i (List.mem_cons_self i is)
    have htl := recordsGo_closed S mapping cols hwf is
      (fun x hx => h x (List.mem_cons_of_mem i hx))
    have hmap : mapO (fun j => cols[j]?.bind (fun col => col[i]?)) (List.range S.dim) =
        some (persistVec S cols i) := by
      apply mapO_spec
      intro j hj
      have hj2 : j < cols.length := by rw [hwf.1]; exact List.mem_range.mp hj
      have hcol : cols[j]? = some cols[j] := List.getElem?_eq_getElem hj2
      have hlen : i < cols[j].length := by
        rw [hwf.2 _ (List.getElem_mem hj2)]; omega
      rw [hcol]
      simp [List.getElem?_eq_getElem hlen]
    rw [recordsGo, List.filterMap_cons]
    cases hm : mapping (toU64 (S.hashOf i))
    · rw [htl, recordOf, hm]
      rfl
    · rw [hmap, htl, recordOf, hm]
      rfl

/-- Closed form of `MatrixMultiplicator::persist` on a well-formed final
generation: the metadata record, one data record per entity resolved by the
entity-mapping lookup (in index order), and the finalize record. -/
theorem persistInMem_closed (S : SpMat) (mapping : Nat → Option String)
    (cols : List (List ℝ)) (hwf : WF S cols) :
    persistInMem S mapping cols = some (OutEvent.metadata S.n S.dim ::
      (List.range S.n).filterMap (recordOf S mapping cols) ++ [OutEvent.finish]) := by
  rw [persistInMem, persistWith,
    recordsGo_closed S mapping cols hwf (List.range S.n) (fun i hi => List.mem_range.mp hi)]

theorem persist_equiv (S : SpMat) (mapping : Nat → Option String)
    (cols : List (List ℝ)) (hwf : WF S cols) :
    persistMmap S mapping cols.flatten = persistInMem S mapping cols := by
  rw [persistMmap, persistInMem, persistWith, persistWith,
    recordsGo_congr S mapping (fun j i => cols.flatten[j * S.n + i]?)
      (fun j i => cols[j]?.bind (fun col => col[i]?)) (List.range S.n)
      (fun i hi j hj => by
        show cols.flatten[j * S.n + i]? = cols[j]?.bind (fun col => col[i]?)
        rw [flatten_cell S.n cols hwf.2 j i (List.mem_range.mp hi)]
        have hj2 : j < cols.length := by rw [hwf.1]; omega
        rw [List.getElem?_eq_getElem hj2]
        rfl)]

theorem mmapInitData_valid (S : SpMat) (hv : ∀ j < S.n, S.hashOf j ≠ -1) :
    mmapInitData S = ((List.range S.dim).map
      (fun i => (List.range S.n).map (fun j => initValue (S.hashOf j) i))).flatten := by
  rw [mmapInitData]
  congr 1
  apply List.map_congr_left
  intro i _
  rw [mmapInitColumn]
  apply List.map_congr_left
  intro j hj
  rw [if_neg (hv j (List.mem_range.mp hj))]

theorem WF_init (S : SpMat) :
    WF S ((List.range S.dim).map
      (fun i => (List.range S.n).map (fun j => initValue (S.hashOf j) i))) := by
  constructor
  · simp
  · intro c hc
    obtain ⟨i, _, rfl⟩ := List.mem_map.mp hc
    simp

/-- C3: for identical inputs (hash table, occurrence counts, entry stream,
dimension) and the same max_iter — with every slot holding a valid hash,
entries within bounds and a nonzero matrix size — the in-memory strategy
(`calculate_embeddings`) and the disk-backed strategy
(`calculate_embeddings_mmap`, no file-system failures) emit exactly the same
output records, and both runs complete.  Over the real-valued model the two
strategies compute identical values, so they agree exactly, which in
particular implies agreement within any tolerance. -/
theorem c3_strategy_equiv (S : SpMat) (maxIter : Nat) (mapping : Nat → Option String)
    (hv : ∀ j < S.n, S.hashOf j ≠ -1) (hok : EntriesOk S)
    (hn : 0 < S.n) (hd : 0 < S.dim) :
    calculateEmbeddings S maxIter mapping =
      calculateEmbeddingsMmap S maxIter mapping (fun _ => false) ∧
    (calculateEmbeddings S maxIter mapping).isSome = true := by
  have hlay : ∀ j < S.n, (S.hashOf j = -1 ↔ S.n ≤ j) := fun j hj =>
    ⟨fun he => absurd he (hv j hj), fun hle => absurd hj (Nat.not_lt.mpr hle)⟩
  have hinit := initMatrix_layout S S.n (Nat.le_refl S.n) hlay
  have hwf0 := WF_init S
  have hnd : S.n * S.dim ≠ 0 := Nat.mul_ne_zero (by omega) (by omega)
  have hmd := mmapInitData_valid S hv
  obtain ⟨cols2, h1, h2, h3⟩ :=
    propagate_equiv S hok hnd (fun _ => false)
      (fun op h => absurd h (by simp)) maxIter 0
      ((List.range S.dim).map
        (fun i => (List.range S.n).map (fun j => initValue (S.hashOf j) i))) hwf0
  have hpers := persistInMem_closed S mapping cols2 h2
  have hpeq := persist_equiv S mapping cols2 h2
  constructor
  · simp only [calculateEmbeddings, hinit, h1, calculateEmbeddingsMmap,
      mmapInitMatrix, Bool.false_eq_true, if_false, or_false, if_neg hnd,
      hmd, h3, hpeq, hpers]
  · simp only [calculateEmbeddings, hinit, h1, hpers, Option.isSome_some]

/-- C3 witness: both strategies on a one-entity, one-dimension source with a
single self-loop entry of weight 1/2 and one propagation round. -/
theorem c3_strategy_equiv_witness :
    calculateEmbeddings (sampleS 1 1 (fun _ => 4) [⟨0, 0, 1 / 2⟩]) 1 (fun _ => some ("a")) =
      calculateEmbeddingsMmap (sampleS 1 1 (fun _ => 4) [⟨0, 0, 1 / 2⟩]) 1
        (fun _ => some ("a")) (fun _ => false) ∧
    (calculateEmbeddings (sampleS 1 1 (fun _ => 4) [⟨0, 0, 1 / 2⟩]) 1
      (fun _ => some ("a"))).isSome = true :=
  c3_strategy_equiv (sampleS 1 1 (fun _ => 4) [⟨0, 0, 1 / 2⟩]) 1 (fun _ => some ("a"))
    (by decide)
    (by intro e he; simp [sampleS] at he ⊢; rw [he]; exact ⟨by norm_num, by norm_num⟩)
    (by decide) (by decide)

theorem neg_lt_tmod (a : Int) {b : Int} (hb : 0 < b) : -b < a.tmod b := by
  obtain ⟨n, rfl⟩ : ∃ n : Nat, b = (n : ℤ) := ⟨b.toNat, by omega⟩
  have hn : 0 < n := by exact_mod_cast hb
  cases a with
  | ofNat m =>
    have h : 0 ≤ Int.tmod (Int.ofNat m) (n : ℤ) := Int.tmod_nonneg _ (Int.ofNat_nonneg m)
    omega
  | negSucc m =>
    have h2 : Int.tmod (Int.negSucc m) (n : ℤ) = -(((m + 1) % n : ℕ) : ℤ) := rfl
    rw [h2]
    have h1 : (m + 1) % n < n := Nat.mod_lt _ hn
    omega

theorem initValue_range (hsh : Int) (i : Nat) :
    -1 < initValue hsh i ∧ initValue hsh i < 1 := by
  rw [initValue]
  have h1 := Int.tmod_lt_of_pos (hash (wrapI64 (hsh + (i : Int))))
    (by norm_num : (0 : ℤ) < 8388608)
  have h2 := neg_lt_tmod (hash (wrapI64 (hsh + (i : Int))))
    (by norm_num : (0 : ℤ) < 8388608)
  constructor
  · rw [lt_div_iff₀ (by norm_num : (0 : ℝ) < 8388608)]
    have hc : ((-8388608 : ℤ) : ℝ) <
        (((hash (wrapI64 (hsh + (i : Int)))).tmod 8388608 : ℤ) : ℝ) := by
      exact_mod_cast h2
    push_cast at hc
    linarith
  · rw [div_lt_one (by norm_num : (0 : ℝ) < 8388608)]
    exact_mod_cast h1

theorem initMatrix_cell (S : SpMat) (i j : Nat) (hv : ∀ j2 < S.n, S.hashOf j2 ≠ -1)
    (hi : i < S.dim) (hj : j < S.n) :
    (initMatrix S).bind (fun cols => cols[i]?.bind (fun col => col[j]?)) =
      some (initValue (S.hashOf j) i) := by
  have hlay : ∀ j2 < S.n, (S.hashOf j2 = -1 ↔ S.n ≤ j2) := fun j2 hj2 =>
    ⟨fun he => absurd he (hv j2 hj2), fun hle => absurd hj2 (Nat.not_lt.mpr hle)⟩
  rw [initMatrix_layout S S.n (Nat.le_refl S.n) hlay]
  simp [List.getElem?_range hi, List.getElem?_range hj]

/-- C4 (amended): for every dimension index `i` and entity index `j` with a
non-sentinel hash `h`, the initializer assigns
`value = (stableHash(h + i) rem M) / M` with `M = 2 ^ 23`, where `rem` is
Rust's *truncated* remainder on i64 and `stableHash` the 64-bit FNV-1a hash
of the little-endian bytes of the wrapped i64 sum `h + i` reinterpreted as
i64; because that reinterpretation can be negative, the value lies in
`(-1, 1)` — it is *not* confined to `[0, 1)`. -/
theorem c4_init_value (S : SpMat) (i j : Nat) (hv : ∀ j2 < S.n, S.hashOf j2 ≠ -1)
    (hi : i < S.dim) (hj : j < S.n) :
    (initMatrix S).bind (fun cols => cols[i]?.bind (fun col => col[j]?)) =
      some (initValue (S.hashOf j) i) ∧
    initValue (S.hashOf j) i =
      (((hash (wrapI64 (S.hashOf j + (i : Int)))).tmod 8388608 : Int) : ℝ) / 8388608 ∧
    -1 < initValue (S.hashOf j) i ∧ initValue (S.hashOf j) i < 1 :=
  ⟨initMatrix_cell S i j hv hi hj, rfl,
    (initValue_range (S.hashOf j) i).1, (initValue_range (S.hashOf j) i).2⟩

/-- C4 witness: the amended statement at a concrete two-entity,
two-dimension source with hash 4 everywhere, at dimension 1 and entity 1. -/
theorem c4_init_value_witness :
    (initMatrix (sampleS 2 2 (fun _ => 4) [])).bind
        (fun cols => cols[1]?.bind (fun col => col[1]?)) =
      some (initValue 4 1) ∧
    initValue 4 1 = (((hash (wrapI64 (4 + (1 : Int)))).tmod 8388608 : Int) : ℝ) / 8388608 ∧
    -1 < initValue 4 1 ∧ initValue 4 1 < 1 :=
  c4_init_value (sampleS 2 2 (fun _ => 4) []) 1 1 (by decide) (by decide) (by decide)

set_option maxRecDepth 8000 in
/-- C4 counterexample: the claim asserts every assigned value lies in
`[0, 1)`, but for hash 0 at dimension 0 the FNV-1a hash reinterpreted as i64
is negative, its truncated remainder modulo `2 ^ 23` is `-6669883`, and the
initializer writes the negative value `-6669883 / 2 ^ 23`. -/
theorem c4_init_value_cex :
    (initMatrix (sampleS 1 1 (fun _ => 0) [])).bind
        (fun cols => cols[0]?.bind (fun col => col[0]?)) =
      some ((-6669883 : ℝ) / 8388608) ∧ (-6669883 : ℝ) / 8388608 < 0 := by
  constructor
  · rw [initMatrix_cell (sampleS 1 1 (fun _ => 0) []) 0 0 (by decide) (by decide) (by decide)]
    have hI : (hash (wrapI64 ((sampleS 1 1 (fun _ => 0) []).hashOf 0 + ((0 : Nat) : Int)))).tmod
        8388608 = -6669883 := by decide
    rw [initValue, hI]
    norm_num
  · norm_num

theorem entrySumR_of_no_row (read : Nat → Option ℝ) :
    ∀ (es : List Entry) (r : Nat), (∀ e ∈ es, e.row ≠ r) → entrySumR read es r = 0
  | [], r, _ => rfl
  | e :: es, r, h => by
    rw [entrySumR_cons, if_neg (h e (List.mem_cons_self e es)), zero_add]
    exact entrySumR_of_no_row read es r (fun x hx => h x (List.mem_cons_of_mem e hx))

/-- C5: each accumulation step starts from a zero-filled generation and adds
`old[i][col] * value` into `new[i][row]` for every entry; afterwards the new
cell `(i, r)` is exactly the sum of `old[i][c] * v` over the entries with
`row = r` (`entrySum`), zero when no entry reaches row `r`.  The first part
states the in-memory `next_power`, the third the disk-backed one on the
column-major flat matrix. -/
theorem c5_next_power_sum (S : SpMat) (res : List (List ℝ))
    (hres : ∀ c ∈ res, c.length = S.n) (hok : EntriesOk S) :
    nextPower S res = some (res.map (nextColumn S)) ∧
    (∀ col ∈ res, ∀ r, r < S.n → (nextColumn S col)[r]? = some (entrySum col S.entries r)) ∧
    (WF S res → mmapNextPowerData S res.flatten = some ((res.map (nextColumn S)).flatten)) ∧
    (∀ (col : List ℝ) (r : Nat), (∀ e ∈ S.entries, e.row ≠ r) →
      entrySum col S.entries r = 0) := by
  refine ⟨nextPower_closed S res hres hok, ?_, ?_, ?_⟩
  · intro col _ r hr
    rw [nextColumn, List.getElem?_map, List.getElem?_range hr]
    rfl
  · intro hwf
    exact mmapNextPowerData_closed S res hwf hok
  · intro col r h
    exact entrySumR_of_no_row _ S.entries r h

/-- C5 witness: a two-entity, one-dimension source with the single entry
`(row = 0, col = 1, value = 3)` applied to the generation `[[5, 7]]`. -/
theorem c5_next_power_sum_witness :
    nextPower (sampleS 2 1 (fun _ => 4) [⟨0, 1, 3⟩]) [[5, 7]] =
      some ([[5, 7]].map (nextColumn (sampleS 2 1 (fun _ => 4) [⟨0, 1, 3⟩]))) ∧
    (∀ col ∈ [[(5 : ℝ), 7]], ∀ r, r < 2 →
      (nextColumn (sampleS 2 1 (fun _ => 4) [⟨0, 1, 3⟩]) col)[r]? =
        some (entrySum col [⟨0, 1, 3⟩] r)) ∧
    (WF (sampleS 2 1 (fun _ => 4) [⟨0, 1, 3⟩]) [[5, 7]] →
      mmapNextPowerData (sampleS 2 1 (fun _ => 4) [⟨0, 1, 3⟩]) [[(5 : ℝ), 7]].flatten =
        some (([[(5 : ℝ), 7]].map (nextColumn (sampleS 2 1 (fun _ => 4) [⟨0, 1, 3⟩]))).flatten)) ∧
    (∀ (col : List ℝ) (r : Nat), (∀ e ∈ [(⟨0, 1, 3⟩ : Entry)], e.row ≠ r) →
      entrySum col [⟨0, 1, 3⟩] r = 0) :=
  c5_next_power_sum (sampleS 2 1 (fun _ => 4) [⟨0, 1, 3⟩]) [[5, 7]]
    (by intro c hc; simp [sampleS] at hc ⊢; rw [hc]; rfl)
    (by intro e he; simp [sampleS] at he ⊢; rw [he]; exact ⟨by norm_num, by norm_num⟩)

/-- C1 (amended): the L2 normalization is applied after every accumulation
inside the propagation loop, but *not* right after initialization; a run
with `max_iter = 0` therefore persists exactly the raw, unnormalized
initialization matrix. -/
theorem c1_zero_iter_raw :
    (∀ (S : SpMat) (mapping : Nat → Option String),
      calculateEmbeddings S 0 mapping =
        match initMatrix S with
        | none => none
        | some init => persistInMem S mapping init) ∧
    (∀ (S : SpMat) (k : Nat) (m : List (List ℝ)),
      propagateInMem S (k + 1) m =
        match nextPower S m with
        | none => none
        | some nxt =>
          match normalizeCols S nxt with
          | none => none
          | some nor => propagateInMem S k nor) := by
  constructor
  · intro S mapping
    cases h : initMatrix S with
    | none => simp [calculateEmbeddings, h]
    | some init => simp [calculateEmbeddings, h, propagateInMem]
  · intro S k m
    rfl

set_option maxRecDepth 8000 in
/-- C1 counterexample: the claim says a `max_iter = 0` run outputs the
*normalized* initialization; on a one-entity, one-dimension source with hash
4 the run persists the raw cell `6099265 / 2 ^ 23 < 1`, while normalizing
the initialization first would persist `1`, so the two runs differ. -/
theorem c1_zero_iter_cex :
    calculateEmbeddings (sampleS 1 1 (fun _ => 4) []) 0 (fun _ => some ("e")) ≠
      (match initMatrix (sampleS 1 1 (fun _ => 4) []) with
       | none => none
       | some init =>
         match normalizeCols (sampleS 1 1 (fun _ => 4) []) init with
         | none => none
         | some nor =>
           persistInMem (sampleS 1 1 (fun _ => 4) []) (fun _ => some ("e")) nor) := by
  have hval : initValue (4 : Int) 0 = (6099265 : ℝ) / 8388608 := by
    have hI : (hash (wrapI64 ((4 : Int) + ((0 : Nat) : Int)))).tmod 8388608 = 6099265 := by
      decide
    rw [initValue, hI]
    norm_num
  have hr1 : List.range 1 = [0] := rfl
  intro h
  simp only [sampleS] at h
  simp [calculateEmbeddings, initMatrix, mapO, initColumn, initColumnGo, vecInsert,
    propagateInMem, normalizeCols, sqSum, sqSumGo, updateCells, updateCellsGo,
    persistInMem, persistWith, recordsGo, hr1, toU64] at h
  rw [hval] at h
  rw [Real.sqrt_sq (by norm_num : (0 : ℝ) ≤ 6099265 / 8388608)] at h
  rw [div_self (by norm_num : (6099265 : ℝ) / 8388608 ≠ 0)] at h
  norm_num at h

/-- C2 (amended): sentinel slots are skipped by both initializers.  When the
valid slots are exactly the indices below `k` (the sentinel slots form a
suffix), the in-memory initializer completes normally with columns of length
`k` — sentinel entities are absent — and the disk-backed initializer leaves
every sentinel entity's cell zero.  With a valid slot *after* a sentinel
slot the in-memory initializer instead panics in `Vec::insert` (see the
counterexample), so completion does not hold for arbitrary placements. -/
theorem c2_sentinel_skip (S : SpMat) (k : Nat) (hk : k ≤ S.n)
    (hlay : ∀ j < S.n, (S.hashOf j = -1 ↔ k ≤ j)) :
    initMatrix S = some ((List.range S.dim).map
      (fun i => (List.range k).map (fun j => initValue (S.hashOf j) i))) ∧
    (∀ cols, initMatrix S = some cols → ∀ col ∈ cols, col.length = k) ∧
    (∀ i, i < S.dim → ∀ j, j < S.n → S.hashOf j = -1 →
      (mmapInitData S)[i * S.n + j]? = some 0) := by
  have hinit := initMatrix_layout S k hk hlay
  refine ⟨hinit, ?_, ?_⟩
  · intro cols hcols col hcol
    rw [hinit] at hcols
    obtain ⟨i, _, rfl⟩ := List.mem_map.mp (by
      injection hcols with h2
      exact h2 ▸ hcol)
    simp
  · intro i hi j hj hsj
    rw [mmapInitData,
      flatten_cell S.n ((List.range S.dim).map (mmapInitColumn S))
        (by
          intro c hc
          obtain ⟨x, _, rfl⟩ := List.mem_map.mp hc
          simp [mmapInitColumn]) i j hj]
    rw [List.getElem?_map, List.getElem?_range hi]
    simp [mmapInitColumn, List.getElem?_range hj, hsj]

/-- C2 witness: the amended statement at a two-entity, one-dimension source
whose slot 0 is valid (hash 7) and slot 1 the sentinel. -/
theorem c2_sentinel_skip_witness :
    initMatrix (sampleS 2 1 (fun j => if j = 0 then 7 else -1) []) =
      some ((List.range 1).map (fun i => (List.range 1).map
        (fun j => initValue ((fun j2 => if j2 = 0 then 7 else -1) j) i))) ∧
    (∀ cols, initMatrix (sampleS 2 1 (fun j => if j = 0 then 7 else -1) []) = some cols →
      ∀ col ∈ cols, col.length = 1) ∧
    (∀ i, i < 1 → ∀ j, j < 2 → (fun j2 => if j2 = 0 then (7 : Int) else -1) j = -1 →
      (mmapInitData (sampleS 2 1 (fun j => if j = 0 then 7 else -1) []))[i * 2 + j]? =
        some 0) :=
  c2_sentinel_skip (sampleS 2 1 (fun j => if j = 0 then 7 else -1) []) 1
    (by decide) (by decide)

/-- C2 counterexample: the claim says the in-memory initializer completes
normally for *any* placement of sentinel slots; with a sentinel at index 0
followed by a valid hash 7 at index 1 the insertion index 1 exceeds the
column length 0, `Vec::insert` panics, and the whole in-memory run dies. -/
theorem c2_sentinel_cex :
    initMatrix (sampleS 2 1 (fun j => if j = 0 then -1 else 7) []) = none ∧
    calculateEmbeddings (sampleS 2 1 (fun j => if j = 0 then -1 else 7) []) 0
      (fun _ => none) = none := by
  have hr1 : List.range 1 = [0] := rfl
  have hr2 : List.range 2 = [0, 1] := rfl
  have h1 : initMatrix (sampleS 2 1 (fun j => if j = 0 then -1 else 7) []) = none := by
    simp [initMatrix, sampleS, mapO, initColumn, initColumnGo, vecInsert, hr1, hr2]
  exact ⟨h1, by simp [calculateEmbeddings, h1]⟩

/-- C6: an entity `j` whose accumulated squared sum is exactly zero is
divided by `sqrt 0 = 0` with no guard, so every component of its vector is
non-finite (`none` under the IEEE division classifier `fdivF`); and the
behaviour is identical in both strategies — the disk-backed `normalize`
computes the same squared sum on the flat column-major matrix and performs
the same unguarded division. -/
theorem c6_zero_row_div (S : SpMat) (res : List (List ℝ)) (j : Nat)
    (hwf : WF S res) (hj : j < S.n) (hz : rowSumVal S.dim res j = 0) :
    Real.sqrt (rowSumVal S.dim res j) = 0 ∧
    (∀ i, i < S.dim → normCellInMemF S.dim res i j = none) ∧
    mmapRowSumVal S res.flatten j = rowSumVal S.dim res j ∧
    (∀ i, i < S.dim → normCellMmapF S res.flatten i j = none) := by
  have hm := mmapRowSumVal_flatten S res hwf.2 j hj
  have hs : Real.sqrt (rowSumVal S.dim res j) = 0 := by rw [hz, Real.sqrt_zero]
  refine ⟨hs, ?_, hm, ?_⟩
  · intro i _
    rw [normCellInMemF, hs, fdivF, if_pos rfl]
  · intro i _
    rw [normCellMmapF, hm, hs, fdivF, if_pos rfl]

/-- C6 witness: a one-entity, one-dimension generation holding the zero
vector, whose squared sum is zero. -/
theorem c6_zero_row_div_witness :
    Real.sqrt (rowSumVal 1 [[0]] 0) = 0 ∧
    (∀ i, i < 1 → normCellInMemF 1 [[0]] i 0 = none) ∧
    mmapRowSumVal (sampleS 1 1 (fun _ => 4) []) [[(0 : ℝ)]].flatten 0 =
      rowSumVal 1 [[0]] 0 ∧
    (∀ i, i < 1 →
      normCellMmapF (sampleS 1 1 (fun _ => 4) []) [[(0 : ℝ)]].flatten i 0 = none) :=
  c6_zero_row_div (sampleS 1 1 (fun _ => 4) []) [[0]] 0
    ⟨rfl, by intro c hc; simp at hc; rw [hc]; rfl⟩ (by decide)
    (by norm_num [rowSumVal, sampleS, show List.range 1 = [0] from rfl])

theorem occCount_append (x : FsEvent) :
    ∀ l1 l2 : List FsEvent, occCount x (l1 ++ l2) = occCount x l1 + occCount x l2
  | [], l2 => by simp [occCount]
  | e :: l1, l2 => by
    show (if e = x then 1 else 0) + occCount x (l1 ++ l2) =
      (if e = x then 1 else 0) + occCount x l1 + occCount x l2
    rw [occCount_append x l1 l2]
    omega

theorem beforeEvent_append (x : FsEvent) :
    ∀ l1 l2 : List FsEvent, occCount x l1 = 0 →
      beforeEvent x (l1 ++ l2) = l1 ++ beforeEvent x l2
  | [], l2, _ => rfl
  | e :: l1, l2, h => by
    have hne : e ≠ x := by
      intro he
      simp [occCount, he] at h
    simp only [occCount, if_neg hne, Nat.zero_add] at h
    show (if e = x then [] else e :: beforeEvent x (l1 ++ l2)) =
      (e :: l1) ++ beforeEvent x l2
    rw [if_neg hne, beforeEvent_append x l1 l2 h]
    rfl

theorem propFrom_add (id : String) :
    ∀ (a : Nat) (i b : Nat),
      propFrom id i (a + b) = propFrom id i a ++ propFrom id (i + a) b
  | 0, i, b => by simp [propFrom]
  | a + 1, i, b => by
    rw [show a + 1 + b = (a + b) + 1 by omega, propFrom, propFrom,
      propFrom_add id a (i + 1) b, show i + 1 + a = i + (a + 1) by omega]
    simp

theorem occCount_delete_propFrom (id : String) (k : Nat) :
    ∀ (a i : Nat), occCount (FsEvent.delete (id, k)) (propFrom id i a) =
      if i ≤ k ∧ k < i + a then 1 else 0
  | 0, i => by
    simp only [propFrom, occCount]
    split_ifs with h
    · omega
    · rfl
  | a + 1, i => by
    rw [propFrom]
    simp only [occCount, occCount_delete_propFrom id k a (i + 1)]
    simp only [reduceCtorEq, if_false, FsEvent.delete.injEq, Prod.mk.injEq, true_and]
    split_ifs <;> omega

theorem occCount_flush_propFrom (id : String) (k : Nat) :
    ∀ (a i : Nat), occCount (FsEvent.flushEv (id, k + 1)) (propFrom id i a) =
      if i ≤ k ∧ k < i + a then 2 else 0
  | 0, i => by
    simp only [propFrom, occCount]
    split_ifs with h
    · omega
    · rfl
  | a + 1, i => by
    rw [propFrom]
    simp only [occCount, occCount_flush_propFrom id k a (i + 1)]
    simp only [reduceCtorEq, if_false, FsEvent.flushEv.injEq, Prod.mk.injEq, true_and]
    split_ifs <;> omega

theorem fsApply_append :
    ∀ (l1 l2 : List FsEvent) (s : List GenFile),
      fsApply (l1 ++ l2) s = fsApply l2 (fsApply l1 s)
  | [], _, _ => rfl
  | e :: l1, l2, s => by
    show fsApply (l1 ++ l2) (fsStep s e) = fsApply l2 (fsApply l1 (fsStep s e))
    exact fsApply_append l1 l2 (fsStep s e)

theorem fsApply_propFrom (id : String) :
    ∀ (a i : Nat), fsApply (propFrom id i a) [(id, i)] = [(id, i + a)]
  | 0, i => by simp [propFrom, fsApply]
  | a + 1, i => by
    rw [propFrom]
    simp only [fsApply, fsStep]
    rw [if_neg (by simp)]
    rw [show fsErase (id, i) [(id, i + 1), (id, i)] = [(id, i + 1)] by
      simp [fsErase]]
    rw [fsApply_propFrom id a (i + 1), show i + 1 + a = i + (a + 1) by omega]

theorem lastOf_append_singleton :
    ∀ (l : List FsEvent) (x : FsEvent), lastOf (l ++ [x]) = some x
  | [], _ => rfl
  | [_], _ => rfl
  | _ :: b :: l, x => lastOf_append_singleton (b :: l) x

/-- C7: in a completed disk-backed run with `max_iter = n`, every generation
file `k < n` is deleted exactly once, and before that deletion the file of
generation `k + 1` has already been created and flushed twice (once by
`next_power`, once by `normalize`); applying the whole event trace to an
empty directory leaves no generation file behind; and the very last event of
the run is the removal of the final generation file `n`, performed after
persistence. -/
theorem c7_file_lifecycle (id : String) (n : Nat) :
    (∀ k, k < n →
      occCount (FsEvent.delete (id, k)) (mmapFsTrace id n) = 1 ∧
      occCount (FsEvent.flushEv (id, k + 1))
        (beforeEvent (FsEvent.delete (id, k)) (mmapFsTrace id n)) = 2) ∧
    fsApply (mmapFsTrace id n) [] = [] ∧
    lastOf (mmapFsTrace id n) = some (FsEvent.delete (id, n)) := by
  refine ⟨fun k hk => ⟨?_, ?_⟩, ?_, ?_⟩
  · rw [mmapFsTrace]
    show (if FsEvent.create (id, 0) = FsEvent.delete (id, k) then 1 else 0) +
      ((if FsEvent.flushEv (id, 0) = FsEvent.delete (id, k) then 1 else 0) +
        occCount (FsEvent.delete (id, k))
          (propFrom id 0 n ++ [FsEvent.delete (id, n)])) = 1
    rw [occCount_append, occCount_delete_propFrom id k n 0]
    have h1 : (if FsEvent.create (id, 0) = FsEvent.delete (id, k) then 1 else 0) = 0 := by
      simp
    have h2 : (if FsEvent.flushEv (id, 0) = FsEvent.delete (id, k) then 1 else 0) = 0 := by
      simp
    have h3 : occCount (FsEvent.delete (id, k)) [FsEvent.delete (id, n)] = 0 := by
      simp only [occCount]
      rw [if_neg (by simp [Prod.ext_iff]; omega)]
    rw [h1, h2, h3, if_pos (by omega)]
  · have hsplit : propFrom id 0 n = propFrom id 0 k ++ propFrom id k (n - k) := by
      have ha := propFrom_add id k 0 (n - k)
      rw [show k + (n - k) = n by omega] at ha
      simpa using ha
    obtain ⟨m, hm⟩ : ∃ m, n - k = m + 1 := ⟨n - k - 1, by omega⟩
    have hsub : propFrom id k (n - k) =
        FsEvent.create (id, k + 1) :: FsEvent.flushEv (id, k + 1) ::
          FsEvent.flushEv (id, k + 1) :: FsEvent.delete (id, k) ::
            propFrom id (k + 1) m := by
      rw [hm, propFrom]
    have hcount0 : occCount (FsEvent.delete (id, k)) (propFrom id 0 k) = 0 := by
      rw [occCount_delete_propFrom id k k 0, if_neg (by omega)]
    rw [mmapFsTrace, hsplit, hsub]
    rw [show (propFrom id 0 k ++ (FsEvent.create (id, k + 1) :: FsEvent.flushEv (id, k + 1) ::
          FsEvent.flushEv (id, k + 1) :: FsEvent.delete (id, k) ::
            propFrom id (k + 1) m)) ++ [FsEvent.delete (id, n)] =
        propFrom id 0 k ++ (FsEvent.create (id, k + 1) :: FsEvent.flushEv (id, k + 1) ::
          FsEvent.flushEv (id, k + 1) :: FsEvent.delete (id, k) ::
            (propFrom id (k + 1) m ++ [FsEvent.delete (id, n)])) by
      rw [List.append_assoc]
      rfl]
    rw [show beforeEvent (FsEvent.delete (id, k))
      (FsEvent.create (id, 0) :: FsEvent.flushEv (id, 0) ::
        (propFrom id 0 k ++ (FsEvent.create (id, k + 1) :: FsEvent.flushEv (id, k + 1) ::
          FsEvent.flushEv (id, k + 1) :: FsEvent.delete (id, k) ::
            (propFrom id (k + 1) m ++ [FsEvent.delete (id, n)])))) =
      FsEvent.create (id, 0) :: FsEvent.flushEv (id, 0) ::
        (propFrom id 0 k ++ [FsEvent.create (id, k + 1), FsEvent.flushEv (id, k + 1),
          FsEvent.flushEv (id, k + 1)]) by
      rw [beforeEvent, if_neg (by simp), beforeEvent, if_neg (by simp),
        beforeEvent_append _ _ _ hcount0]
      rw [beforeEvent, if_neg (by simp), beforeEvent,
        if_neg (by simp), beforeEvent,
        if_neg (by simp), beforeEvent, if_pos rfl]]
    show (if FsEvent.create (id, 0) = FsEvent.flushEv (id, k + 1) then 1 else 0) +
      ((if FsEvent.flushEv (id, 0) = FsEvent.flushEv (id, k + 1) then 1 else 0) +
        occCount (FsEvent.flushEv (id, k + 1))
          (propFrom id 0 k ++ [FsEvent.create (id, k + 1), FsEvent.flushEv (id, k + 1),
            FsEvent.flushEv (id, k + 1)])) = 2
    rw [occCount_append, occCount_flush_propFrom id k k 0]
    simp [occCount]
  · rw [mmapFsTrace]
    show fsApply (propFrom id 0 n ++ [FsEvent.delete (id, n)])
      (fsStep (fsStep [] (FsEvent.create (id, 0))) (FsEvent.flushEv (id, 0))) = []
    rw [show fsStep (fsStep [] (FsEvent.create (id, 0))) (FsEvent.flushEv (id, 0)) =
      [(id, 0)] by simp [fsStep]]
    rw [fsApply_append, show fsApply (propFrom id 0 n) [(id, 0)] = [(id, n)] by
      have := fsApply_propFrom id n 0
      rwa [Nat.zero_add] at this]
    simp [fsApply, fsStep, fsErase]
  · rw [mmapFsTrace]
    exact lastOf_append_singleton
      (FsEvent.create (id, 0) :: FsEvent.flushEv (id, 0) :: propFrom id 0 n)
      (FsEvent.delete (id, n))

/-- C7 witness: the lifecycle facts at matrix id m with three iterations,
read off for the deletion of generation 1. -/
theorem c7_file_lifecycle_witness :
    occCount (FsEvent.delete (("m"), 1)) (mmapFsTrace ("m") 3) = 1 ∧
    occCount (FsEvent.flushEv (("m"), 2))
      (beforeEvent (FsEvent.delete (("m"), 1)) (mmapFsTrace ("m") 3)) = 2 ∧
    fsApply (mmapFsTrace ("m") 3) [] = [] ∧
    lastOf (mmapFsTrace ("m") 3) = some (FsEvent.delete (("m"), 3)) :=
  ⟨((c7_file_lifecycle ("m") 3).1 1 (by decide)).1,
    ((c7_file_lifecycle ("m") 3).1 1 (by decide)).2,
    (c7_file_lifecycle ("m") 3).2.1,
    (c7_file_lifecycle ("m") 3).2.2⟩

/-- C8 (amended): `persist` emits, besides metadata and the finalize call,
exactly one record per entity index whose hash's `u64` cast the
entity-mapping lookup resolves; an unresolved entity is silently skipped and
the loop continues.  A sentinel-slot entity therefore never appears in
output *provided* the lookup does not resolve the sentinel's unsigned cast
`2 ^ 64 - 1` — the code filters only by lookup failure, never by the
sentinel itself (a lookup resolving that cast does emit the sentinel entity:
see the counterexample). -/
theorem c8_filtering (S : SpMat) (mapping : Nat → Option String)
    (cols : List (List ℝ)) (hwf : WF S cols) :
    persistInMem S mapping cols = some (OutEvent.metadata S.n S.dim ::
      (List.range S.n).filterMap (recordOf S mapping cols) ++ [OutEvent.finish]) ∧
    (∀ i, mapping (toU64 (S.hashOf i)) = none → recordOf S mapping cols i = none) ∧
    (mapping (toU64 (-1)) = none → ∀ i, S.hashOf i = -1 →
      recordOf S mapping cols i = none) := by
  refine ⟨persistInMem_closed S mapping cols hwf, ?_, ?_⟩
  · intro i hi
    rw [recordOf, hi]
    rfl
  · intro hmap i hi
    rw [recordOf, hi, hmap]
    rfl

/-- C8 witness: the amended statement on a one-entity source whose lookup
resolves nothing. -/
theorem c8_filtering_witness :
    persistInMem (sampleS 1 1 (fun _ => 4) []) (fun _ => none) [[3]] =
      some (OutEvent.metadata 1 1 ::
        (List.range 1).filterMap
          (recordOf (sampleS 1 1 (fun _ => 4) []) (fun _ => none) [[3]]) ++
        [OutEvent.finish]) ∧
    (∀ i, (fun _ => (none : Option String)) (toU64 ((sampleS 1 1 (fun _ => 4) []).hashOf i)) =
        none →
      recordOf (sampleS 1 1 (fun _ => 4) []) (fun _ => none) [[3]] i = none) ∧
    ((fun _ => (none : Option String)) (toU64 (-1)) = none →
      ∀ i, (sampleS 1 1 (fun _ => 4) []).hashOf i = -1 →
        recordOf (sampleS 1 1 (fun _ => 4) []) (fun _ => none) [[3]] i = none) :=
  c8_filtering (sampleS 1 1 (fun _ => 4) []) (fun _ => none) [[3]]
    ⟨rfl, by intro c hc; simp at hc; rw [hc]; rfl⟩

/-- C8 counterexample: the claim says a sentinel-slot entity never appears
in output for *every* entity-mapping lookup; under a lookup that resolves
everything — including the sentinel's cast — the disk-backed run on a
one-entity table holding only the sentinel emits a data record for that
entity (its zero vector). -/
theorem c8_filtering_cex :
    calculateEmbeddingsMmap (sampleS 1 1 (fun _ => -1) []) 0 (fun _ => some ("s"))
      (fun _ => false) =
      some [OutEvent.metadata 1 1, OutEvent.data ("s") 5 [0], OutEvent.finish] := by
  have hr1 : List.range 1 = [0] := rfl
  simp [calculateEmbeddingsMmap, mmapInitMatrix, mmapInitData, mmapInitColumn,
    mmapPropagateF, persistMmap, persistWith, recordsGo, mapO, sampleS, hr1]

theorem mmapPropagateF_flushOnly (S : SpMat) (fail : FsOp → Bool) (hfo : FlushOnly fail) :
    ∀ (k i : Nat) (m : List ℝ),
      mmapPropagateF S fail i k m = mmapPropagateF S (fun _ => false) i k m
  | 0, _, _ => rfl
  | k + 1, i, m => by
    have hc := FlushOnly_false fail hfo (FsOp.createOp (S.id, i + 1)) (fun f => by simp)
    have hs := FlushOnly_false fail hfo (FsOp.setLenOp (S.id, i + 1)) (fun f => by simp)
    have hm := FlushOnly_false fail hfo (FsOp.mapOp (S.id, i + 1)) (fun f => by simp)
    have hr := FlushOnly_false fail hfo (FsOp.removeOp (S.id, i)) (fun f => by simp)
    simp only [mmapPropagateF, mmapNextPowerF, hc, hs, hm, hr, Bool.false_eq_true,
      if_false, or_false]
    by_cases hz : S.n * S.dim = 0
    · rw [if_pos hz]
    · rw [if_neg hz]
      cases mmapNextPowerData S m with
      | none => rfl
      | some nxt =>
        show (match mmapNormalize S nxt with
          | none => none
          | some nor => mmapPropagateF S fail (i + 1) k nor) =
          (match mmapNormalize S nxt with
          | none => none
          | some nor => mmapPropagateF S (fun _ => false) (i + 1) k nor)
        cases mmapNormalize S nxt with
        | none => rfl
        | some nor => exact mmapPropagateF_flushOnly S fail hfo k (i + 1) nor

/-- C9 (amended): a failing create, resize (`set_len`), map or delete
(`remove_file`) aborts the disk-backed run immediately — each is
`.unwrap()`ed, with no retry — but the `Result` of every `mmap.flush()` call
is discarded (lines 299, 367, 410), so a flush failure does *not* abort: a
run under a flush-only failure oracle returns exactly what the failure-free
run returns, while a failing create of the first generation file kills the
whole run. -/
theorem c9_fs_failure (S : SpMat) (maxIter : Nat) (mapping : Nat → Option String)
    (fail : FsOp → Bool) :
    (FlushOnly fail →
      calculateEmbeddingsMmap S maxIter mapping fail =
        calculateEmbeddingsMmap S maxIter mapping (fun _ => false)) ∧
    (fail (FsOp.createOp (S.id, 0)) = true →
      calculateEmbeddingsMmap S maxIter mapping fail = none) := by
  constructor
  · intro hfo
    have hc := FlushOnly_false fail hfo (FsOp.createOp (S.id, 0)) (fun f => by simp)
    have hs := FlushOnly_false fail hfo (FsOp.setLenOp (S.id, 0)) (fun f => by simp)
    have hm := FlushOnly_false fail hfo (FsOp.mapOp (S.id, 0)) (fun f => by simp)
    have hr := FlushOnly_false fail hfo (FsOp.removeOp (S.id, maxIter)) (fun f => by simp)
    simp only [calculateEmbeddingsMmap, mmapInitMatrix, hc, hs, hm, hr,
      Bool.false_eq_true, if_false, or_false,
      mmapPropagateF_flushOnly S fail hfo maxIter 0]
  · intro hfail
    simp [calculateEmbeddingsMmap, mmapInitMatrix, hfail]

/-- C9 witness: the amended statement at a concrete one-entity source under
the flush-only failure oracle. -/
theorem c9_fs_failure_witness :
    (FlushOnly flushFailOracle →
      calculateEmbeddingsMmap (sampleS 1 1 (fun _ => 3) []) 0 (fun _ => none)
          flushFailOracle =
        calculateEmbeddingsMmap (sampleS 1 1 (fun _ => 3) []) 0 (fun _ => none)
          (fun _ => false)) ∧
    (flushFailOracle (FsOp.createOp ((sampleS 1 1 (fun _ => 3) []).id, 0)) = true →
      calculateEmbeddingsMmap (sampleS 1 1 (fun _ => 3) []) 0 (fun _ => none)
        flushFailOracle = none) :=
  c9_fs_failure (sampleS 1 1 (fun _ => 3) []) 0 (fun _ => none) flushFailOracle

/-- C9 counterexample: the claim says *every* flush failure is fatal; under
the oracle that fails every flush — in particular the flush of the
generation-0 file the run performs — the disk-backed run nevertheless
completes and emits its metadata and finalize calls. -/
theorem c9_fs_failure_cex :
    calculateEmbeddingsMmap (sampleS 1 1 (fun _ => 3) []) 0 (fun _ => none)
      flushFailOracle = some [OutEvent.metadata 1 1, OutEvent.finish] ∧
    flushFailOracle (FsOp.flushOp (("m"), 0)) = true := by
  have hr1 : List.range 1 = [0] := rfl
  constructor
  · simp [calculateEmbeddingsMmap, mmapInitMatrix, mmapInitData, mmapInitColumn,
      mmapPropagateF, persistMmap, persistWith, recordsGo, mapO, sampleS, hr1,
      flushFailOracle]
  · rfl

theorem propagateInMem_WF (S : SpMat) (hok : EntriesOk S) :
    ∀ (k : Nat) (cols : List (List ℝ)), WF S cols →
      ∃ cols2, propagateInMem S k cols = some cols2 ∧ WF S cols2
  | 0, cols, hwf => ⟨cols, rfl, hwf⟩
  | k + 1, cols, hwf => by
    have hnext := nextPower_closed S cols hwf.2 hok
    have hwfn := WF_nextColumn S cols hwf
    have hnorm := normalizeCols_closed S (cols.map (nextColumn S)) hwfn
    have hwfn2 := WF_normColumn S (cols.map (nextColumn S)) (cols.map (nextColumn S)) hwfn
    obtain ⟨cols2, h1, h2⟩ := propagateInMem_WF S hok k
      ((cols.map (nextColumn S)).map (normColumn S (cols.map (nextColumn S)))) hwfn2
    refine ⟨cols2, ?_, h2⟩
    simp only [propagateInMem, hnext, hnorm]
    exact h1

/-- C10: when the sparse source reports an entity count of zero (and hence
an empty entry stream), the in-memory strategy completes and emits exactly
the metadata call and the finalize call with no data records, whereas the
disk-backed strategy dies during initialization: the generation-0 file has
length `0 * dimension * 4 = 0` and mapping a zero-length file fails (the
`memmap` crate rejects zero-length maps), which is `.unwrap()`ed. -/
theorem c10_zero_entities (S : SpMat) (maxIter : Nat) (mapping : Nat → Option String)
    (hn : S.n = 0) (he : S.entries = []) :
    calculateEmbeddings S maxIter mapping =
      some [OutEvent.metadata 0 S.dim, OutEvent.finish] ∧
    calculateEmbeddingsMmap S maxIter mapping (fun _ => false) = none := by
  constructor
  · have hok : EntriesOk S := by rw [EntriesOk, he]; simp
    have hinit : initMatrix S =
        some ((List.range S.dim).map (fun _ => ([] : List ℝ))) :=
      mapO_spec _ _ _ (fun i _ => by rw [initColumn, hn]; rfl)
    have hwf : WF S ((List.range S.dim).map (fun _ => ([] : List ℝ))) := by
      refine ⟨by simp, ?_⟩
      intro c hc
      obtain ⟨x, _, rfl⟩ := List.mem_map.mp hc
      simp [hn]
    obtain ⟨cols2, hp, hwf2⟩ := propagateInMem_WF S hok maxIter _ hwf
    have hpers := persistInMem_closed S mapping cols2 hwf2
    rw [hn] at hpers
    simp only [calculateEmbeddings, hinit, hp, hpers]
    rfl
  · simp [calculateEmbeddingsMmap, mmapInitMatrix, hn]

/-- C10 witness: a zero-entity, two-dimension source with three requested
iterations. -/
theorem c10_zero_entities_witness :
    calculateEmbeddings (sampleS 0 2 (fun _ => 4) []) 3 (fun _ => some ("x")) =
      some [OutEvent.metadata 0 2, OutEvent.finish] ∧
    calculateEmbeddingsMmap (sampleS 0 2 (fun _ => 4) []) 3 (fun _ => some ("x"))
      (fun _ => false) = none :=
  c10_zero_entities (sampleS 0 2 (fun _ => 4) []) 3 (fun _ => some ("x")) rfl rfl

end Cleora
